import Mathlib

/-!
Verification of the cryptopals repository's block-cipher mode engine,
oracle-probing toolkit, and byte-at-a-time ECB secret recovery.

Bytes are modelled as natural numbers (< 256 where it matters), byte
slices as `List Nat`.  The block cipher primitive (`crypto/aes` in the
source) is an external collaborator, modelled as an abstract structure
of an encrypt-one-block / decrypt-one-block pair of a fixed block size,
with the inverse law that a valid key provides.
-/

namespace Cryptopals

/-- Panic conditions of a mode engine's `CryptBlocks`
("input not full blocks", "dst too small" / "output smaller than input",
"invalid buffer overlap"). -/
inductive ModeError where
  | invalidInputLength
  | bufferTooSmall
  | invalidOverlap
deriving DecidableEq, Repr

/-- An abstract block cipher primitive, standing in for `cipher.Block`
(concretely AES-128 in the source).  `enc`/`dec` are `Encrypt`/`Decrypt`
on a single block; a valid key makes `dec` a left inverse of `enc`. -/
structure BlockCipher where
  bs : Nat
  bs_pos : 0 < bs
  enc : List Nat → List Nat
  dec : List Nat → List Nat
  enc_len : ∀ b : List Nat, b.length = bs → (enc b).length = bs
  dec_len : ∀ b : List Nat, b.length = bs → (dec b).length = bs
  dec_enc : ∀ b : List Nat, b.length = bs → dec (enc b) = b

/-- `subtle.XORBytes(dst, x, y)`: XOR of two byte sequences over the
first `min (len x) (len y)` bytes. -/
def xorBytes (x y : List Nat) : List Nat :=
  List.zipWith (fun a b => a ^^^ b) x y

/-- `ecbEncrypter.CryptBlocks` main loop, fuel-indexed so that it is
structurally recursive: one fuel unit is spent per block.  Supplying
`src.length` fuel (as `ecbEncryptBlocks` does) always suffices, since
every iteration consumes at least one byte of `src`. -/
def ecbEncryptLoop (c : BlockCipher) : Nat → List Nat → List Nat
  | 0, _ => []
  | fuel + 1, src =>
    if src = [] then []
    else c.enc (src.take c.bs) ++ ecbEncryptLoop c fuel (src.drop c.bs)

/-- `ecbEncrypter.CryptBlocks` main loop: encrypt each block of `src`
independently.  (`src` is consumed `bs` bytes at a time.) -/
def ecbEncryptBlocks (c : BlockCipher) (src : List Nat) : List Nat :=
  ecbEncryptLoop c src.length src

/-- `ecbDecrypter.CryptBlocks` main loop, fuel-indexed. -/
def ecbDecryptLoop (c : BlockCipher) : Nat → List Nat → List Nat
  | 0, _ => []
  | fuel + 1, src =>
    if src = [] then []
    else c.dec (src.take c.bs) ++ ecbDecryptLoop c fuel (src.drop c.bs)

/-- `ecbDecrypter.CryptBlocks` main loop: decrypt each block of `src`
independently. -/
def ecbDecryptBlocks (c : BlockCipher) (src : List Nat) : List Nat :=
  ecbDecryptLoop c src.length src

/-- The CBC decryption transformation of `cbcDecrypter.CryptBlocks`
(set2.go), fuel-indexed. -/
def cbcDecryptLoop (c : BlockCipher) : Nat → List Nat → List Nat → List Nat
  | 0, _, _ => []
  | fuel + 1, iv, src =>
    if src = [] then []
    else xorBytes (c.dec (src.take c.bs)) iv ++
      cbcDecryptLoop c fuel (src.take c.bs) (src.drop c.bs)

/-- The CBC decryption transformation computed by
`cbcDecrypter.CryptBlocks` (set2.go): every plaintext block is
`Decrypt(C_i) XOR C_(i-1)`, the first block XORing with the IV.  The
source iterates backwards over the blocks to allow in-place operation;
block by block it computes exactly this value, so the forward recursion
(chaining each block's ciphertext as the next block's XOR mask) is the
same function of the input bytes. -/
def cbcDecryptBlocks (c : BlockCipher) (iv src : List Nat) : List Nat :=
  cbcDecryptLoop c src.length iv src

/-- CBC encryption main loop, fuel-indexed. -/
def cbcEncryptLoop (c : BlockCipher) : Nat → List Nat → List Nat → List Nat
  | 0, _, _ => []
  | fuel + 1, iv, src =>
    if src = [] then []
    else
      let ct := c.enc (xorBytes (src.take c.bs) iv)
      ct ++ cbcEncryptLoop c fuel ct (src.drop c.bs)

/-- Modelled from the spec: CBC encryption (provided in the source by
the external `crypto/cipher.NewCBCEncrypter`) "XORs each plaintext
block with the previous ciphertext block (or IV) before encrypting",
proceeding forward. -/
def cbcEncryptBlocks (c : BlockCipher) (iv src : List Nat) : List Nat :=
  cbcEncryptLoop c src.length iv src

/-- The PKCS #7 padding computation of `PadPKCS7` (set2.go): append
`p = n - len(b) % n` copies of the byte `p`. -/
def pkcs7 (b : List Nat) (n : Nat) : List Nat :=
  b ++ List.replicate (n - b.length % n) (n - b.length % n)

/-- `PadPKCS7(b, n)`: panics unless `1 <= n <= 255` (`math.MaxUint8`),
then appends PKCS #7 padding.  The panic is modelled as `none`. -/
def padPKCS7 (b : List Nat) (n : Nat) : Option (List Nat) :=
  if n < 1 ∨ 255 < n then none else some (pkcs7 b n)

/-- `UnpadPKCS7(b)`: reads the final byte `n` and drops the last `n`
bytes.  Indexing an empty slice, or a count exceeding the length,
panics in Go; both are modelled as `none`. -/
def unpadPKCS7 (b : List Nat) : Option (List Nat) :=
  match b.getLast? with
  | none => none
  | some n => if b.length < n then none else some (b.take (b.length - n))

/-- `cbcDecrypter.CryptBlocks` (set2.go), acting on byte sequences with
an adequate destination buffer of length `dstLen`.  Checks are in
source order: "input not full blocks", "dst too small", then the empty
early return (which leaves the IV untouched).  Returns the plaintext
and the updated chaining state, which the source clones from the last
ciphertext block before the loop ("Save this to use as the new IV
later"). -/
def cbcDecrypterCryptBlocks (c : BlockCipher) (iv : List Nat)
    (dstLen : Nat) (src : List Nat) :
    Except ModeError (List Nat × List Nat) :=
  if src.length % c.bs ≠ 0 then .error .invalidInputLength
  else if dstLen < src.length then .error .bufferTooSmall
  else if src.length = 0 then .ok ([], iv)
  else .ok (cbcDecryptBlocks c iv src, src.drop (src.length - c.bs))

/-- `ecbEncrypter.CryptBlocks` (cryptopals package), acting on byte
sequences with a destination buffer of length `dstLen`. -/
def ecbEncrypterCryptBlocks (c : BlockCipher) (dstLen : Nat)
    (src : List Nat) : Except ModeError (List Nat) :=
  if src.length % c.bs ≠ 0 then .error .invalidInputLength
  else if dstLen < src.length then .error .bufferTooSmall
  else .ok (ecbEncryptBlocks c src)

/-- `ecbDecrypter.CryptBlocks` (cryptopals package), acting on byte
sequences with a destination buffer of length `dstLen`. -/
def ecbDecrypterCryptBlocks (c : BlockCipher) (dstLen : Nat)
    (src : List Nat) : Except ModeError (List Nat) :=
  if src.length % c.bs ≠ 0 then .error .invalidInputLength
  else if dstLen < src.length then .error .bufferTooSmall
  else .ok (ecbDecryptBlocks c src)

/-- Modelled from the spec: the CBC encrypting engine (provided in the
source by the external `crypto/cipher.NewCBCEncrypter`) with the same
`CryptBlocks` contract as the other mode engines.  Its chaining state
becomes the last ciphertext block produced. -/
def cbcEncrypterCryptBlocks (c : BlockCipher) (iv : List Nat)
    (dstLen : Nat) (src : List Nat) :
    Except ModeError (List Nat × List Nat) :=
  if src.length % c.bs ≠ 0 then .error .invalidInputLength
  else if dstLen < src.length then .error .bufferTooSmall
  else if src.length = 0 then .ok ([], iv)
  else
    let ct := cbcEncryptBlocks c iv src
    .ok (ct, ct.drop (ct.length - c.bs))

/-! ### Buffer-level model

Go slices of one shared backing array are modelled as offset/length
descriptors into a byte store `mem : List Nat`.  Two slices of
unrelated arrays are placed at disjoint regions of the store. -/

/-- A Go byte-slice header: offset into the store and length. -/
structure Slice where
  off : Nat
  len : Nat
deriving DecidableEq, Repr

/-- The bytes a slice designates. -/
def readSlice (mem : List Nat) (off len : Nat) : List Nat :=
  (mem.drop off).take len

/-- Overwrite `bytes` into the store at `off`. -/
def writeSlice (mem : List Nat) (off : Nat) (bytes : List Nat) : List Nat :=
  mem.take off ++ bytes ++ mem.drop (off + bytes.length)

/-- Modelled from the spec: `alias.InexactOverlap` (the repository's
`alias` package is not among the provided sources).  Per the spec,
`CryptBlocks` must reject `dst`/`src` pairs that "overlap in a way that
is not an exact identity aliasing": in-place use (`dst == src` over the
processed region, the slices starting at the same byte) is permitted,
while partial/offset overlap of two non-empty regions is rejected. -/
def inexactOverlap (x y : Slice) : Bool :=
  x.len ≠ 0 && y.len ≠ 0 && !(x.off = y.off) &&
    (x.off < y.off + y.len) && (y.off < x.off + x.len)

/-- `encrypter.CryptBlocks` of the `ecb` package (part_000), over the
buffer-level model.  Checks in source order: "ecb: input not full
blocks", "ecb: output smaller than input", "ecb: invalid buffer
overlap" (on `dst[:len(src)]` and `src`), empty early return.  In the
two permitted aliasing situations (exact identity, or fully disjoint
regions) the loop's block writes never change bytes it has yet to
read, so its effect on the store is one bulk write of the encryption
of the bytes `src` designated on entry. -/
def ecbPkgEncrypterCryptBlocks (c : BlockCipher) (mem : List Nat)
    (dst src : Slice) : Except ModeError (List Nat) :=
  if src.len % c.bs ≠ 0 then .error .invalidInputLength
  else if dst.len < src.len then .error .bufferTooSmall
  else if inexactOverlap ⟨dst.off, src.len⟩ src then .error .invalidOverlap
  else if src.len = 0 then .ok mem
  else .ok (writeSlice mem dst.off
    (ecbEncryptBlocks c (readSlice mem src.off src.len)))

/-- `decrypter.CryptBlocks` of the `ecb` package (part_000), over the
buffer-level model; same structure as the encrypter. -/
def ecbPkgDecrypterCryptBlocks (c : BlockCipher) (mem : List Nat)
    (dst src : Slice) : Except ModeError (List Nat) :=
  if src.len % c.bs ≠ 0 then .error .invalidInputLength
  else if dst.len < src.len then .error .bufferTooSmall
  else if inexactOverlap ⟨dst.off, src.len⟩ src then .error .invalidOverlap
  else if src.len = 0 then .ok mem
  else .ok (writeSlice mem dst.off
    (ecbDecryptBlocks c (readSlice mem src.off src.len)))

/-- One iteration of the `cbc` package decrypter's forward loop
(cbc/cbc.go): `d.b.Decrypt(dst, src)` writes the decrypted first block
of `src` into `dst`, `subtle.XORBytes(dst, dst, d.iv)` XORs the
chaining value over it (one combined store write below, as the two
writes target the same block and the XOR reads what was just written),
and then `d.iv = src[:bs]` saves a *reference* to the first source
block — whose bytes are looked up again from the store at the point of
next use.  The recursion materialises that reference by reading the
store after this iteration's write; in both permitted aliasing
situations no later write precedes the next use of the reference. -/
def cbcPkgDecryptGo (c : BlockCipher) (mem : List Nat) (iv : List Nat)
    (dstOff srcOff : Nat) : Nat → List Nat × List Nat
  | 0 => (mem, iv)
  | n + 1 =>
    let s := readSlice mem srcOff c.bs
    let m1 := writeSlice mem dstOff (xorBytes (c.dec s) iv)
    cbcPkgDecryptGo c m1 (readSlice m1 srcOff c.bs)
      (dstOff + c.bs) (srcOff + c.bs) n

/-- `decrypter.CryptBlocks` of the `cbc` package (cbc/cbc.go), over
the buffer-level model.  Checks in source order: "cbc: input not full
blocks", "cbc: output smaller than input", "cbc: invalid buffer
overlap", empty early return; then the forward per-block loop.
Returns the final store and the final chaining state (the bytes
`d.iv` references when the call ends). -/
def cbcPkgDecrypterCryptBlocks (c : BlockCipher) (mem : List Nat)
    (iv : List Nat) (dst src : Slice) :
    Except ModeError (List Nat × List Nat) :=
  if src.len % c.bs ≠ 0 then .error .invalidInputLength
  else if dst.len < src.len then .error .bufferTooSmall
  else if inexactOverlap ⟨dst.off, src.len⟩ src then .error .invalidOverlap
  else if src.len = 0 then .ok (mem, iv)
  else .ok (cbcPkgDecryptGo c mem iv dst.off src.off (src.len / c.bs))

/-- One non-first-block iteration of `cbcDecrypter.CryptBlocks`
(set2.go), processing block `i ≥ 1` of the backward loop:
`c.b.Decrypt(dst[start:end], src[start:end])` then
`subtle.XORBytes(dst[start:end], dst[start:end], src[prev:start])`,
each of the two reads from the store as it stands. -/
def cbcSet2DecryptStep (c : BlockCipher) (mem : List Nat)
    (dstOff srcOff i : Nat) : List Nat :=
  let m1 := writeSlice mem (dstOff + i * c.bs)
    (c.dec (readSlice mem (srcOff + i * c.bs) c.bs))
  writeSlice m1 (dstOff + i * c.bs)
    (xorBytes (readSlice m1 (dstOff + i * c.bs) c.bs)
      (readSlice m1 (srcOff + (i - 1) * c.bs) c.bs))

/-- The backward loop of `cbcDecrypter.CryptBlocks` (set2.go): blocks
`i, i-1, ..., 1` are processed by `cbcSet2DecryptStep`, and finally
block `0` is decrypted and XORed with the caller-level IV. -/
def cbcSet2DecryptBlocksGo (c : BlockCipher) (mem : List Nat)
    (iv : List Nat) (dstOff srcOff : Nat) : Nat → List Nat
  | 0 =>
    let m1 := writeSlice mem dstOff (c.dec (readSlice mem srcOff c.bs))
    writeSlice m1 dstOff (xorBytes (readSlice m1 dstOff c.bs) iv)
  | i + 1 =>
    cbcSet2DecryptBlocksGo c
      (cbcSet2DecryptStep c mem dstOff srcOff (i + 1)) iv dstOff srcOff i

/-- `cbcDecrypter.CryptBlocks` (set2.go) over the buffer-level model.
Checks in source order — note there is *no* overlap check in this
engine.  `tmp := bytes.Clone(src[start:end])` snapshots the last
ciphertext block before any write; it becomes the new IV. -/
def cbcSet2CryptBlocks (c : BlockCipher) (mem : List Nat)
    (iv : List Nat) (dst src : Slice) :
    Except ModeError (List Nat × List Nat) :=
  if src.len % c.bs ≠ 0 then .error .invalidInputLength
  else if dst.len < src.len then .error .bufferTooSmall
  else if src.len = 0 then .ok (mem, iv)
  else
    let tmp := readSlice mem (src.off + src.len - c.bs) c.bs
    .ok (cbcSet2DecryptBlocksGo c mem iv dst.off src.off
      (src.len / c.bs - 1), tmp)

/-! ### Probe toolkit -/

/-- `bs`-byte chunk splitter, fuel-indexed. -/
def toBlocksLoop (bs : Nat) : Nat → List Nat → List (List Nat)
  | 0, _ => []
  | fuel + 1, l =>
    if l = [] then []
    else l.take bs :: toBlocksLoop bs fuel (l.drop bs)

/-- Block splitter used to reason about `isECBCiphertext`'s
block-at-a-time scan: the list of `bs`-byte chunks. -/
def toBlocks (bs : Nat) (l : List Nat) : List (List Nat) :=
  toBlocksLoop bs l.length l

/-- The seen-map scan of `isECBCiphertext`: true when some block value
occurs twice (each block is compared against all earlier ones). -/
def hasRepeatedBlock : List (List Nat) → Bool
  | [] => false
  | b :: rest => rest.contains b || hasRepeatedBlock rest

/-- `IsECBCiphertext(b, blockSize)`: false unless the length is a
multiple of the block size; otherwise, true when a block repeats. -/
def isECBCiphertext (b : List Nat) (bs : Nat) : Bool :=
  if b.length % bs ≠ 0 then false
  else hasRepeatedBlock (toBlocks bs b)

/-- The growing loop of `FindBlockSize`: append a zero byte to the
input and re-query until the ciphertext length differs from `start`.
The Go loop is unbounded; `fuel` bounds the model, `none` marking
exhaustion (the claims quantify over oracles on which the loop
terminates within the supplied fuel). -/
def findBlockSizeLoop (oracle : List Nat → List Nat) (start : Nat)
    (input : List Nat) : Nat → Option Nat
  | 0 => none
  | fuel + 1 =>
    let input2 := input ++ [0]
    let n := (oracle input2).length
    if n = start then findBlockSizeLoop oracle start input2 fuel
    else some (n - start)

/-- `FindBlockSize(oracle)`: the ciphertext length for a 1-byte input,
grown until the ciphertext length changes; the delta is the block
size. -/
def findBlockSize (fuel : Nat) (oracle : List Nat → List Nat) :
    Option Nat :=
  let input : List Nat := [0]
  let start := (oracle input).length
  findBlockSizeLoop oracle start input fuel

/-- `IsECBOracle(oracle)`: discover the block size, return false for
block size 1, else submit `3*bs` zero bytes and fingerprint the
ciphertext.  `none` models `FindBlockSize` never terminating within
`fuel`. -/
def isECBOracle (fuel : Nat) (oracle : List Nat → List Nat) :
    Option Bool :=
  match findBlockSize fuel oracle with
  | none => none
  | some bs =>
    if bs = 1 then some false
    else some (isECBCiphertext (oracle (List.replicate (bs * 3) 0)) bs)

/-! ### Secret recovery engine -/

/-- The inner guess loop of `RecoverECBSuffixOracleSecret`:
`for i := range math.MaxUint8` tries the candidate bytes `0 .. 254`
in order (note `math.MaxUint8 = 255` is itself never tried), returning
the first `b` whose ciphertext agrees with `want` on the first
`len(filler || res || b)` bytes. -/
def guessLoop (oracle : List Nat → List Nat) (filler res want : List Nat) :
    Option Nat :=
  (List.range 255).find? fun b =>
    let input := filler ++ res ++ [b]
    decide ((oracle input).take input.length = want.take input.length)

/-- The outer round loop of `RecoverECBSuffixOracleSecret`: each round
aligns the next unknown byte to the end of a block with a zero filler
of length `bs - len(res)%bs - 1`, captures the reference ciphertext,
and runs the guess loop; a successful guess is appended and a failed
round ends the loop.  The Go loop is unbounded; `fuel` bounds the
model. -/
def recoverRounds (oracle : List Nat → List Nat) (bs : Nat) :
    Nat → List Nat → Option (List Nat)
  | 0, _ => none
  | fuel + 1, res =>
    let filler : List Nat := List.replicate (bs - res.length % bs - 1) 0
    let want := oracle filler
    match guessLoop oracle filler res want with
    | some b => recoverRounds oracle bs fuel (res ++ [b])
    | none => some res

/-- `RecoverECBSuffixOracleSecret(oracle)`: find the block size, panic
("not ecb") unless the oracle fingerprints as ECB, run the guess
rounds, then strip the guessed padding with `UnpadPKCS7`.  Panics and
fuel exhaustion are modelled as `none`. -/
def recoverECBSuffixOracleSecret (fuel : Nat)
    (oracle : List Nat → List Nat) : Option (List Nat) :=
  match findBlockSize fuel oracle with
  | none => none
  | some bs =>
    match isECBOracle fuel oracle with
    | some true =>
      match recoverRounds oracle bs fuel [] with
      | some res => unpadPKCS7 res
      | none => none
    | _ => none

/-! ### Oracles -/

/-- `NewECBSuffixOracle(secret)` with an abstract cipher in place of
AES-128 under the random fixed key: the oracle returns
`encrypt(pad(input || secret))`, the encryption in place over the
padded buffer (an exact-identity aliasing). -/
def mkECBSuffixOracle (c : BlockCipher) (secret : List Nat) :
    List Nat → List Nat :=
  fun input => ecbEncryptBlocks c (pkcs7 (input ++ secret) c.bs)

/-- `NewECBOrCBCPrefixSuffixOracle()` (challenge 11) with its random
draws (key, IV, 5–10 byte affixes, mode coin) made explicit: the
oracle returns `encrypt(pad(pre || input || suf))` under ECB when
`useECB` and CBC otherwise. -/
def mkECBOrCBCPrefixSuffixOracle (c : BlockCipher)
    (iv pre suf : List Nat) (useECB : Bool) : List Nat → List Nat :=
  fun input =>
    let res := pkcs7 (pre ++ input ++ suf) c.bs
    if useECB then ecbEncryptBlocks c res else cbcEncryptBlocks c iv res

/-- `NewECBPrefixSuffixOracle(secret)` (challenge 14) with the random
fixed key and the random fixed 1–50 byte affix made explicit: returns
`encrypt(pad(pre || input || secret))` under ECB. -/
def mkECBPrefixSuffixOracle (c : BlockCipher) (pre secret : List Nat) :
    List Nat → List Nat :=
  fun input => ecbEncryptBlocks c (pkcs7 (pre ++ input ++ secret) c.bs)

/-! ### Prefix-length discovery and prefix-variant recovery

The challenge-14 attack functions are absent from the provided sources
(the test calls `RecoverECBPrefixSuffixSecret`; only a commented-out
stub exists), so they are modelled from the spec below. -/

/-- Modelled from the spec: the "magic block" of the prefix-length
discovery is "the most frequent block value in the ciphertext (ties
broken arbitrarily)". -/
def mostFrequentBlock (blocks : List (List Nat)) : Option (List Nat) :=
  blocks.argmax (fun b => blocks.count b)

/-- Modelled from the spec: the index of the first block equal to the
magic block. -/
def findBlockIdx (magic : List Nat) : List (List Nat) → Option Nat
  | [] => none
  | b :: rest =>
    if b == magic then some 0 else (findBlockIdx magic rest).map (· + 1)

/-- Modelled from the spec: prefix-length discovery
(`DiscoverPrefixLength(oracle, blockSize)`).  A reference block value
`ref` is chosen (at random, per the spec) and submitted repeated
`reps` times ("many times (e.g., 100×)"); the magic block is the most
frequent ciphertext block.  Then, searching over padding lengths
`0..blockSize-1`, that many extra bytes of the reference block value
are prepended ahead of the full repetition, and the first byte offset
at which the magic block appears in the output yields the prefix
length as `firstOffset - paddingLength`.  `MagicBlockNotFound` (no
`a` reproduces the magic block) is modelled as `none`. -/
def discoverPrefixLength (bs reps : Nat) (ref : List Nat)
    (oracle : List Nat → List Nat) : Option Nat :=
  let probe := (List.replicate reps ref).flatten
  let ct := oracle probe
  match mostFrequentBlock (toBlocks bs ct) with
  | none => none
  | some magic =>
    (List.range bs).findSome? (fun a =>
      match findBlockIdx magic (toBlocks bs (oracle (ref.take a ++ probe)))
          with
      | some i => some (i * bs - a)
      | none => none)

/-- Modelled from the spec: the prefix-variant guess loop.  "For each
candidate byte value 0–255, query the oracle with
`filler || recovered || candidate`; compare the ciphertext prefix of
length `prefixLen + len(filler) + len(recovered) + 1` against the
same-length prefix" of the reference. -/
def guessLoopWithPre (oracle : List Nat → List Nat) (preLen : Nat)
    (filler res want : List Nat) : Option Nat :=
  (List.range 256).find? fun b =>
    let input := filler ++ res ++ [b]
    decide ((oracle input).take (preLen + input.length)
      = want.take (preLen + input.length))

/-- Modelled from the spec: the prefix-variant round loop.  Each round
aligns the next unknown byte with a filler of length
`bs - ((prefixLen + len(recovered)) mod bs) - 1`, and a failed round
ends the loop. -/
def recoverRoundsWithPre (oracle : List Nat → List Nat)
    (bs preLen : Nat) : Nat → List Nat → Option (List Nat)
  | 0, _ => none
  | fuel + 1, res =>
    let filler : List Nat :=
      List.replicate (bs - (preLen + res.length) % bs - 1) 0
    let want := oracle filler
    match guessLoopWithPre oracle preLen filler res want with
    | some b => recoverRoundsWithPre oracle bs preLen fuel (res ++ [b])
    | none => some res

/-- Modelled from the spec: `RecoverSecretWithPrefix(oracle)` (called
`RecoverECBPrefixSuffixSecret` by the test): discover the block size,
discover the prefix length, run the byte-at-a-time rounds offset by
the prefix length, and strip the guessed padding. -/
def recoverECBPrefixSuffixSecret (fuel reps : Nat) (ref : List Nat)
    (oracle : List Nat → List Nat) : Option (List Nat) :=
  match findBlockSize fuel oracle with
  | none => none
  | some bs =>
    match discoverPrefixLength bs reps ref oracle with
    | none => none
    | some preLen =>
      match recoverRoundsWithPre oracle bs preLen fuel [] with
      | some res => unpadPKCS7 res
      | none => none

/-! ### Concrete cipher instances for witnesses and counterexamples -/

/-- A 16-byte-block cipher whose one-block transformation is the
identity: a legitimate (if useless) instance of the primitive's
contract, standing in for an AES-128 key in concrete evaluations. -/
def idCipher16 : BlockCipher where
  bs := 16
  bs_pos := by decide
  enc := id
  dec := id
  enc_len := fun _ h => h
  dec_len := fun _ h => h
  dec_enc := fun _ _ => rfl

/-- A 2-byte-block identity cipher, for small concrete evaluations of
the buffer-level engines. -/
def idCipher2 : BlockCipher where
  bs := 2
  bs_pos := by decide
  enc := id
  dec := id
  enc_len := fun _ h => h
  dec_len := fun _ h => h
  dec_enc := fun _ _ => rfl

/-! ### Basic lemmas -/

theorem xorBytes_length (x y : List Nat) :
    (xorBytes x y).length = min x.length y.length := by
  simp [xorBytes]

theorem xorBytes_cancel (x y : List Nat) (h : x.length = y.length) :
    xorBytes (xorBytes x y) y = x := by
  induction x generalizing y with
  | nil => simp [xorBytes]
  | cons a as ih =>
    cases y with
    | nil => simp at h
    | cons b bs =>
      simp only [xorBytes, List.zipWith_cons_cons, List.cons.injEq]
      refine ⟨Nat.xor_cancel_right b a, ?_⟩
      exact ih bs (by simpa using h)

theorem dvd_length_le {bs : Nat} {x : List Nat} (hx : x ≠ [])
    (hdvd : bs ∣ x.length) (hbs : 0 < bs) : bs ≤ x.length :=
  Nat.le_of_dvd (List.length_pos.mpr hx) hdvd

theorem dvd_length_drop {bs : Nat} {x : List Nat} (hdvd : bs ∣ x.length) :
    bs ∣ (x.drop bs).length := by
  rw [List.length_drop]
  exact Nat.dvd_sub' hdvd dvd_rfl

/-! ### Fuel normalisation: `length` fuel is always enough -/

theorem ecbEncryptLoop_norm (c : BlockCipher) (fuel : Nat) (src : List Nat)
    (h : src.length ≤ fuel) :
    ecbEncryptLoop c fuel src = ecbEncryptBlocks c src := by
  match fuel with
  | 0 =>
    have hx : src = [] := by
      cases src with
      | nil => rfl
      | cons a l => simp at h
    subst hx
    rfl
  | fuel + 1 =>
    by_cases hx : src = []
    · subst hx
      rfl
    · obtain ⟨m, hm⟩ : ∃ m, src.length = m + 1 :=
        ⟨src.length - 1, by have := List.length_pos.mpr hx; omega⟩
      rw [ecbEncryptBlocks, hm]
      show ecbEncryptLoop c (fuel + 1) src = ecbEncryptLoop c (m + 1) src
      rw [ecbEncryptLoop, ecbEncryptLoop, if_neg hx, if_neg hx]
      have hbs := c.bs_pos
      have hd : (src.drop c.bs).length ≤ fuel := by
        simp only [List.length_drop]; omega
      have hd2 : (src.drop c.bs).length ≤ m := by
        simp only [List.length_drop]; omega
      rw [ecbEncryptLoop_norm c fuel _ hd, ecbEncryptLoop_norm c m _ hd2]
termination_by fuel
decreasing_by
  · omega
  · omega

theorem ecbEncryptBlocks_nil (c : BlockCipher) :
    ecbEncryptBlocks c [] = [] := rfl

theorem ecbEncryptBlocks_eq (c : BlockCipher) (src : List Nat) :
    ecbEncryptBlocks c src = if src = [] then []
      else c.enc (src.take c.bs) ++ ecbEncryptBlocks c (src.drop c.bs) := by
  by_cases hx : src = []
  · subst hx; rfl
  · rw [if_neg hx]
    obtain ⟨m, hm⟩ : ∃ m, src.length = m + 1 :=
      ⟨src.length - 1, by have := List.length_pos.mpr hx; omega⟩
    rw [ecbEncryptBlocks, hm]
    show ecbEncryptLoop c (m + 1) src = _
    rw [ecbEncryptLoop, if_neg hx]
    have hbs := c.bs_pos
    rw [ecbEncryptLoop_norm c m _ (by simp only [List.length_drop]; omega)]

theorem ecbDecryptLoop_norm (c : BlockCipher) (fuel : Nat) (src : List Nat)
    (h : src.length ≤ fuel) :
    ecbDecryptLoop c fuel src = ecbDecryptBlocks c src := by
  match fuel with
  | 0 =>
    have hx : src = [] := by
      cases src with
      | nil => rfl
      | cons a l => simp at h
    subst hx
    rfl
  | fuel + 1 =>
    by_cases hx : src = []
    · subst hx
      rfl
    · obtain ⟨m, hm⟩ : ∃ m, src.length = m + 1 :=
        ⟨src.length - 1, by have := List.length_pos.mpr hx; omega⟩
      rw [ecbDecryptBlocks, hm]
      show ecbDecryptLoop c (fuel + 1) src = ecbDecryptLoop c (m + 1) src
      rw [ecbDecryptLoop, ecbDecryptLoop, if_neg hx, if_neg hx]
      have hbs := c.bs_pos
      have hd : (src.drop c.bs).length ≤ fuel := by
        simp only [List.length_drop]; omega
      have hd2 : (src.drop c.bs).length ≤ m := by
        simp only [List.length_drop]; omega
      rw [ecbDecryptLoop_norm c fuel _ hd, ecbDecryptLoop_norm c m _ hd2]
termination_by fuel
decreasing_by
  · omega
  · omega

theorem ecbDecryptBlocks_nil (c : BlockCipher) :
    ecbDecryptBlocks c [] = [] := rfl

theorem ecbDecryptBlocks_eq (c : BlockCipher) (src : List Nat) :
    ecbDecryptBlocks c src = if src = [] then []
      else c.dec (src.take c.bs) ++ ecbDecryptBlocks c (src.drop c.bs) := by
  by_cases hx : src = []
  · subst hx; rfl
  · rw [if_neg hx]
    obtain ⟨m, hm⟩ : ∃ m, src.length = m + 1 :=
      ⟨src.length - 1, by have := List.length_pos.mpr hx; omega⟩
    rw [ecbDecryptBlocks, hm]
    show ecbDecryptLoop c (m + 1) src = _
    rw [ecbDecryptLoop, if_neg hx]
    have hbs := c.bs_pos
    rw [ecbDecryptLoop_norm c m _ (by simp only [List.length_drop]; omega)]

theorem cbcDecryptLoop_norm (c : BlockCipher) (fuel : Nat)
    (iv src : List Nat) (h : src.length ≤ fuel) :
    cbcDecryptLoop c fuel iv src = cbcDecryptBlocks c iv src := by
  match fuel with
  | 0 =>
    have hx : src = [] := by
      cases src with
      | nil => rfl
      | cons a l => simp at h
    subst hx
    rfl
  | fuel + 1 =>
    by_cases hx : src = []
    · subst hx
      rfl
    · obtain ⟨m, hm⟩ : ∃ m, src.length = m + 1 :=
        ⟨src.length - 1, by have := List.length_pos.mpr hx; omega⟩
      rw [cbcDecryptBlocks, hm]
      show cbcDecryptLoop c (fuel + 1) iv src
        = cbcDecryptLoop c (m + 1) iv src
      rw [cbcDecryptLoop, cbcDecryptLoop, if_neg hx, if_neg hx]
      have hbs := c.bs_pos
      have hd : (src.drop c.bs).length ≤ fuel := by
        simp only [List.length_drop]; omega
      have hd2 : (src.drop c.bs).length ≤ m := by
        simp only [List.length_drop]; omega
      rw [cbcDecryptLoop_norm c fuel _ _ hd, cbcDecryptLoop_norm c m _ _ hd2]
termination_by fuel
decreasing_by
  · omega
  · omega

theorem cbcDecryptBlocks_nil (c : BlockCipher) (iv : List Nat) :
    cbcDecryptBlocks c iv [] = [] := rfl

theorem cbcDecryptBlocks_eq (c : BlockCipher) (iv src : List Nat) :
    cbcDecryptBlocks c iv src = if src = [] then []
      else xorBytes (c.dec (src.take c.bs)) iv ++
        cbcDecryptBlocks c (src.take c.bs) (src.drop c.bs) := by
  by_cases hx : src = []
  · subst hx; rfl
  · rw [if_neg hx]
    obtain ⟨m, hm⟩ : ∃ m, src.length = m + 1 :=
      ⟨src.length - 1, by have := List.length_pos.mpr hx; omega⟩
    rw [cbcDecryptBlocks, hm]
    show cbcDecryptLoop c (m + 1) iv src = _
    rw [cbcDecryptLoop, if_neg hx]
    have hbs := c.bs_pos
    rw [cbcDecryptLoop_norm c m _ _ (by simp only [List.length_drop]; omega)]

theorem cbcEncryptLoop_norm (c : BlockCipher) (fuel : Nat)
    (iv src : List Nat) (h : src.length ≤ fuel) :
    cbcEncryptLoop c fuel iv src = cbcEncryptBlocks c iv src := by
  match fuel with
  | 0 =>
    have hx : src = [] := by
      cases src with
      | nil => rfl
      | cons a l => simp at h
    subst hx
    rfl
  | fuel + 1 =>
    by_cases hx : src = []
    · subst hx
      rfl
    · obtain ⟨m, hm⟩ : ∃ m, src.length = m + 1 :=
        ⟨src.length - 1, by have := List.length_pos.mpr hx; omega⟩
      rw [cbcEncryptBlocks, hm]
      show cbcEncryptLoop c (fuel + 1) iv src
        = cbcEncryptLoop c (m + 1) iv src
      rw [cbcEncryptLoop, cbcEncryptLoop, if_neg hx, if_neg hx]
      have hbs := c.bs_pos
      have hd : (src.drop c.bs).length ≤ fuel := by
        simp only [List.length_drop]; omega
      have hd2 : (src.drop c.bs).length ≤ m := by
        simp only [List.length_drop]; omega
      simp only
      rw [cbcEncryptLoop_norm c fuel _ _ hd, cbcEncryptLoop_norm c m _ _ hd2]
termination_by fuel
decreasing_by
  · omega
  · omega

theorem cbcEncryptBlocks_nil (c : BlockCipher) (iv : List Nat) :
    cbcEncryptBlocks c iv [] = [] := rfl

theorem cbcEncryptBlocks_eq (c : BlockCipher) (iv src : List Nat) :
    cbcEncryptBlocks c iv src = if src = [] then []
      else c.enc (xorBytes (src.take c.bs) iv) ++
        cbcEncryptBlocks c (c.enc (xorBytes (src.take c.bs) iv))
          (src.drop c.bs) := by
  by_cases hx : src = []
  · subst hx; rfl
  · rw [if_neg hx]
    obtain ⟨m, hm⟩ : ∃ m, src.length = m + 1 :=
      ⟨src.length - 1, by have := List.length_pos.mpr hx; omega⟩
    rw [cbcEncryptBlocks, hm]
    show cbcEncryptLoop c (m + 1) iv src = _
    rw [cbcEncryptLoop, if_neg hx]
    have hbs := c.bs_pos
    simp only
    rw [cbcEncryptLoop_norm c m _ _ (by simp only [List.length_drop]; omega)]

theorem toBlocksLoop_norm (bs : Nat) (hbs : 0 < bs) (fuel : Nat)
    (l : List Nat) (h : l.length ≤ fuel) :
    toBlocksLoop bs fuel l = toBlocks bs l := by
  match fuel with
  | 0 =>
    have hx : l = [] := by
      cases l with
      | nil => rfl
      | cons a t => simp at h
    subst hx
    rfl
  | fuel + 1 =>
    by_cases hx : l = []
    · subst hx
      rfl
    · obtain ⟨m, hm⟩ : ∃ m, l.length = m + 1 :=
        ⟨l.length - 1, by have := List.length_pos.mpr hx; omega⟩
      rw [toBlocks, hm]
      show toBlocksLoop bs (fuel + 1) l = toBlocksLoop bs (m + 1) l
      rw [toBlocksLoop, toBlocksLoop, if_neg hx, if_neg hx]
      have hd : (l.drop bs).length ≤ fuel := by
        simp only [List.length_drop]; omega
      have hd2 : (l.drop bs).length ≤ m := by
        simp only [List.length_drop]; omega
      rw [toBlocksLoop_norm bs hbs fuel _ hd, toBlocksLoop_norm bs hbs m _ hd2]
termination_by fuel
decreasing_by
  · omega
  · omega

theorem toBlocks_nil (bs : Nat) : toBlocks bs [] = [] := rfl

theorem toBlocks_eq (bs : Nat) (hbs : 0 < bs) (l : List Nat) :
    toBlocks bs l = if l = [] then []
      else l.take bs :: toBlocks bs (l.drop bs) := by
  by_cases hx : l = []
  · subst hx; rfl
  · rw [if_neg hx]
    obtain ⟨m, hm⟩ : ∃ m, l.length = m + 1 :=
      ⟨l.length - 1, by have := List.length_pos.mpr hx; omega⟩
    rw [toBlocks, hm]
    show toBlocksLoop bs (m + 1) l = _
    rw [toBlocksLoop, if_neg hx]
    rw [toBlocksLoop_norm bs hbs m _ (by simp only [List.length_drop]; omega)]

/-! ### ECB loop lemmas -/

theorem ecbEncryptBlocks_length (c : BlockCipher) (x : List Nat)
    (hdvd : c.bs ∣ x.length) : (ecbEncryptBlocks c x).length = x.length := by
  by_cases hx : x = []
  · simp [hx, ecbEncryptBlocks_nil]
  · have hle : c.bs ≤ x.length := dvd_length_le hx hdvd c.bs_pos
    rw [ecbEncryptBlocks_eq, if_neg hx, List.length_append,
      c.enc_len _ (by simp [List.length_take]; omega),
      ecbEncryptBlocks_length c (x.drop c.bs) (dvd_length_drop hdvd),
      List.length_drop]
    omega
termination_by x.length
decreasing_by
  simp only [List.length_drop]
  exact Nat.sub_lt (List.length_pos.mpr hx) c.bs_pos

theorem ecbDecryptBlocks_ecbEncryptBlocks (c : BlockCipher) (x : List Nat)
    (hdvd : c.bs ∣ x.length) :
    ecbDecryptBlocks c (ecbEncryptBlocks c x) = x := by
  by_cases hx : x = []
  · simp [hx, ecbEncryptBlocks_nil, ecbDecryptBlocks_nil]
  · have hle : c.bs ≤ x.length := dvd_length_le hx hdvd c.bs_pos
    have htk : (x.take c.bs).length = c.bs := by
      simp [List.length_take]; omega
    have henc : (c.enc (x.take c.bs)).length = c.bs := c.enc_len _ htk
    rw [ecbEncryptBlocks_eq, if_neg hx]
    have hne : c.enc (x.take c.bs) ++ ecbEncryptBlocks c (x.drop c.bs) ≠ [] := by
      intro hcontra
      have := congrArg List.length hcontra
      have hp := c.bs_pos
      simp [henc] at this
      omega
    rw [ecbDecryptBlocks_eq, if_neg hne,
      List.take_left' henc, List.drop_left' henc, c.dec_enc _ htk,
      ecbDecryptBlocks_ecbEncryptBlocks c (x.drop c.bs) (dvd_length_drop hdvd),
      List.take_append_drop]
termination_by x.length
decreasing_by
  simp only [List.length_drop]
  exact Nat.sub_lt (List.length_pos.mpr hx) c.bs_pos

/-! ### CBC loop lemmas -/

theorem cbcEncryptBlocks_length (c : BlockCipher) (iv x : List Nat)
    (hiv : iv.length = c.bs) (hdvd : c.bs ∣ x.length) :
    (cbcEncryptBlocks c iv x).length = x.length := by
  by_cases hx : x = []
  · simp [hx, cbcEncryptBlocks_nil]
  · have hle : c.bs ≤ x.length := dvd_length_le hx hdvd c.bs_pos
    have htk : (x.take c.bs).length = c.bs := by
      simp [List.length_take]; omega
    have hxor : (xorBytes (x.take c.bs) iv).length = c.bs := by
      rw [xorBytes_length, htk, hiv]; omega
    rw [cbcEncryptBlocks_eq, if_neg hx]
    simp only [List.length_append]
    rw [c.enc_len _ hxor,
      cbcEncryptBlocks_length c (c.enc (xorBytes (x.take c.bs) iv))
        (x.drop c.bs) (c.enc_len _ hxor) (dvd_length_drop hdvd),
      List.length_drop]
    omega
termination_by x.length
decreasing_by
  simp only [List.length_drop]
  exact Nat.sub_lt (List.length_pos.mpr hx) c.bs_pos

theorem cbcDecryptBlocks_cbcEncryptBlocks (c : BlockCipher) (iv x : List Nat)
    (hiv : iv.length = c.bs) (hdvd : c.bs ∣ x.length) :
    cbcDecryptBlocks c iv (cbcEncryptBlocks c iv x) = x := by
  by_cases hx : x = []
  · simp [hx, cbcEncryptBlocks_nil, cbcDecryptBlocks_nil]
  · have hle : c.bs ≤ x.length := dvd_length_le hx hdvd c.bs_pos
    have htk : (x.take c.bs).length = c.bs := by
      simp [List.length_take]; omega
    have hxor : (xorBytes (x.take c.bs) iv).length = c.bs := by
      rw [xorBytes_length, htk, hiv]; omega
    have henc : (c.enc (xorBytes (x.take c.bs) iv)).length = c.bs :=
      c.enc_len _ hxor
    rw [cbcEncryptBlocks_eq, if_neg hx]
    have hne : c.enc (xorBytes (x.take c.bs) iv) ++
        cbcEncryptBlocks c (c.enc (xorBytes (x.take c.bs) iv))
          (x.drop c.bs) ≠ [] := by
      intro hcontra
      have := congrArg List.length hcontra
      have hp := c.bs_pos
      simp [henc] at this
      omega
    rw [cbcDecryptBlocks_eq, if_neg hne,
      List.take_left' henc, List.drop_left' henc, c.dec_enc _ hxor,
      xorBytes_cancel _ _ (by rw [htk, hiv]),
      cbcDecryptBlocks_cbcEncryptBlocks c (c.enc (xorBytes (x.take c.bs) iv))
        (x.drop c.bs) henc (dvd_length_drop hdvd),
      List.take_append_drop]
termination_by x.length
decreasing_by
  simp only [List.length_drop]
  exact Nat.sub_lt (List.length_pos.mpr hx) c.bs_pos

/-! ### PKCS #7 lemmas -/

theorem pkcs7_eq (b : List Nat) (n : Nat) :
    pkcs7 b n = b ++ List.replicate (n - b.length % n)
      (n - b.length % n) := rfl

theorem pkcs7_length (b : List Nat) (n : Nat) :
    (pkcs7 b n).length = b.length + (n - b.length % n) := by
  simp [pkcs7]

theorem pkcs7_padcount (b : List Nat) (n : Nat) (hn : 0 < n) :
    1 ≤ n - b.length % n ∧ n - b.length % n ≤ n := by
  have := Nat.mod_lt b.length hn
  omega

theorem pkcs7_length_eq_mul (b : List Nat) (n : Nat) (hn : 0 < n) :
    (pkcs7 b n).length = n * (b.length / n + 1) := by
  have hqr := Nat.div_add_mod b.length n
  have := Nat.mod_lt b.length hn
  rw [pkcs7_length, Nat.mul_succ]
  have : b.length = n * (b.length / n) + b.length % n := hqr.symm
  omega

theorem pkcs7_length_mod (b : List Nat) (n : Nat) (hn : 0 < n) :
    (pkcs7 b n).length % n = 0 := by
  rw [pkcs7_length_eq_mul b n hn]
  exact Nat.mul_mod_right n _

theorem pkcs7_length_dvd (b : List Nat) (n : Nat) (hn : 0 < n) :
    n ∣ (pkcs7 b n).length := by
  rw [pkcs7_length_eq_mul b n hn]
  exact Dvd.intro _ rfl

theorem unpadPKCS7_append_replicate (b : List Nat) (k : Nat)
    (hk1 : 1 ≤ k) : unpadPKCS7 (b ++ List.replicate k k) = some b := by
  obtain ⟨j, rfl⟩ : ∃ j, k = j + 1 := ⟨k - 1, by omega⟩
  have hassoc : b ++ List.replicate (j + 1) (j + 1) =
      (b ++ List.replicate j (j + 1)) ++ [j + 1] := by
    rw [List.replicate_succ' j (j + 1), List.append_assoc]
  rw [hassoc]
  unfold unpadPKCS7
  rw [List.getLast?_concat]
  have hlen : ((b ++ List.replicate j (j + 1)) ++ [j + 1]).length
      = b.length + (j + 1) := by simp
  simp only [hlen]
  rw [if_neg (by omega)]
  have htake : b.length + (j + 1) - (j + 1) = b.length := by omega
  rw [htake, List.append_assoc, List.take_left' rfl]

theorem unpadPKCS7_pkcs7 (b : List Nat) (n : Nat) (hn : 0 < n) :
    unpadPKCS7 (pkcs7 b n) = some b := by
  exact unpadPKCS7_append_replicate b _ (pkcs7_padcount b n hn).1

/-! ### FindBlockSize on length-padded oracles -/

theorem padded_quot_const (K bs ℓ : Nat) (hbs : 0 < bs) (h1 : 1 ≤ ℓ)
    (h2 : ℓ ≤ bs - (1 + K) % bs) : (ℓ + K) / bs = (1 + K) / bs := by
  have hqr := Nat.div_add_mod (1 + K) bs
  have hr : (1 + K) % bs < bs := Nat.mod_lt _ hbs
  have key : ℓ + K = bs * ((1 + K) / bs) + ((1 + K) % bs + ℓ - 1) := by
    omega
  rw [key, Nat.mul_add_div hbs]
  have hz : ((1 + K) % bs + ℓ - 1) / bs = 0 := Nat.div_eq_of_lt (by omega)
  omega

theorem padded_quot_boundary (K bs : Nat) (hbs : 0 < bs) :
    ((bs - (1 + K) % bs + 1) + K) / bs = (1 + K) / bs + 1 := by
  have hqr := Nat.div_add_mod (1 + K) bs
  have hr : (1 + K) % bs < bs := Nat.mod_lt _ hbs
  have key : (bs - (1 + K) % bs + 1) + K
      = bs * ((1 + K) / bs + 1) := by
    rw [Nat.mul_add, Nat.mul_one]
    omega
  rw [key, Nat.mul_div_cancel_left _ hbs]

theorem findBlockSizeLoop_padded (oracle : List Nat → List Nat)
    (K bs : Nat) (hbs : 0 < bs)
    (hlen : ∀ x : List Nat,
      (oracle x).length = ((x.length + K) / bs + 1) * bs)
    (fuel : Nat) (input : List Nat) (hin1 : 1 ≤ input.length)
    (hinB : input.length ≤ bs - (1 + K) % bs)
    (hfuel : bs - (1 + K) % bs + 1 ≤ input.length + fuel) :
    findBlockSizeLoop oracle (oracle [0]).length input fuel = some bs := by
  match fuel with
  | 0 => omega
  | fuel + 1 =>
    have hstart : (oracle [0]).length = ((1 + K) / bs + 1) * bs := by
      rw [hlen]
      simp
    have hlen2 : (input ++ [0]).length = input.length + 1 := by simp
    by_cases hc : input.length + 1 ≤ bs - (1 + K) % bs
    · have hn : (oracle (input ++ [0])).length = (oracle [0]).length := by
        rw [hlen, hstart, hlen2,
          padded_quot_const K bs (input.length + 1) hbs (by omega) hc]
      show (if (oracle (input ++ [0])).length = (oracle [0]).length
        then findBlockSizeLoop oracle (oracle [0]).length (input ++ [0]) fuel
        else some ((oracle (input ++ [0])).length - (oracle [0]).length))
        = some bs
      rw [if_pos hn]
      exact findBlockSizeLoop_padded oracle K bs hbs hlen fuel (input ++ [0])
        (by omega) (by omega) (by omega)
    · have hB : input.length + 1 = bs - (1 + K) % bs + 1 := by omega
      have hn : (oracle (input ++ [0])).length
          = ((1 + K) / bs + 1) * bs + bs := by
        rw [hlen, hlen2, hB, padded_quot_boundary K bs hbs]
        ring
      show (if (oracle (input ++ [0])).length = (oracle [0]).length
        then findBlockSizeLoop oracle (oracle [0]).length (input ++ [0]) fuel
        else some ((oracle (input ++ [0])).length - (oracle [0]).length))
        = some bs
      rw [if_neg (by rw [hn, hstart]; omega), hn, hstart]
      congr 1
      omega

/-- `FindBlockSize` returns the block size of any oracle whose output
length is the input length plus a constant `K`, rounded up to the next
strictly larger multiple of `bs`, given at least `bs` fuel. -/
theorem findBlockSize_padded (oracle : List Nat → List Nat)
    (K bs : Nat) (hbs : 0 < bs)
    (hlen : ∀ x : List Nat,
      (oracle x).length = ((x.length + K) / bs + 1) * bs)
    (fuel : Nat) (hfuel : bs ≤ fuel) :
    findBlockSize fuel oracle = some bs := by
  have hr : (1 + K) % bs < bs := Nat.mod_lt _ hbs
  exact findBlockSizeLoop_padded oracle K bs hbs hlen fuel [0]
    (by simp) (by simp; omega) (by simp; omega)

/-! ### Oracle length laws -/

theorem ecbEncryptBlocks_pkcs7_length (c : BlockCipher) (b : List Nat) :
    (ecbEncryptBlocks c (pkcs7 b c.bs)).length
      = (b.length / c.bs + 1) * c.bs := by
  rw [ecbEncryptBlocks_length c _ (pkcs7_length_dvd _ _ c.bs_pos),
    pkcs7_length_eq_mul _ _ c.bs_pos, Nat.mul_comm]

theorem mkECBSuffixOracle_length (c : BlockCipher) (secret x : List Nat) :
    (mkECBSuffixOracle c secret x).length
      = ((x.length + secret.length) / c.bs + 1) * c.bs := by
  show (ecbEncryptBlocks c (pkcs7 (x ++ secret) c.bs)).length = _
  rw [ecbEncryptBlocks_pkcs7_length]
  simp

theorem mkECBPrefixSuffixOracle_length (c : BlockCipher)
    (pre secret x : List Nat) :
    (mkECBPrefixSuffixOracle c pre secret x).length
      = ((x.length + (pre.length + secret.length)) / c.bs + 1) * c.bs := by
  show (ecbEncryptBlocks c (pkcs7 (pre ++ x ++ secret) c.bs)).length = _
  rw [ecbEncryptBlocks_pkcs7_length]
  simp only [List.length_append]
  have h : pre.length + x.length + secret.length
      = x.length + (pre.length + secret.length) := by omega
  rw [h]

theorem mkECBOrCBCPrefixSuffixOracle_length (c : BlockCipher)
    (iv pre suf : List Nat) (hiv : iv.length = c.bs) (useECB : Bool)
    (x : List Nat) :
    (mkECBOrCBCPrefixSuffixOracle c iv pre suf useECB x).length
      = ((x.length + (pre.length + suf.length)) / c.bs + 1) * c.bs := by
  show (if useECB then ecbEncryptBlocks c (pkcs7 (pre ++ x ++ suf) c.bs)
    else cbcEncryptBlocks c iv (pkcs7 (pre ++ x ++ suf) c.bs)).length = _
  cases useECB with
  | true =>
    rw [if_pos rfl, ecbEncryptBlocks_pkcs7_length]
    simp only [List.length_append]
    have h : pre.length + x.length + suf.length
        = x.length + (pre.length + suf.length) := by omega
    rw [h]
  | false =>
    rw [if_neg (by simp),
      cbcEncryptBlocks_length c iv _ hiv (pkcs7_length_dvd _ _ c.bs_pos),
      pkcs7_length_eq_mul _ _ c.bs_pos, Nat.mul_comm]
    simp only [List.length_append]
    have h : pre.length + x.length + suf.length
        = x.length + (pre.length + suf.length) := by omega
    rw [h]

/-! ### Claim C10: PKCS #7 pad/unpad round trip -/

/-- C10: for every byte sequence `b` and every block size `n` with
`1 <= n <= 255`, `PadPKCS7(b, n)` succeeds and returns `b` extended by
`k` padding bytes each equal to `k`, where `1 <= k <= n`; the padded
length is a strictly larger multiple of `n`; and
`UnpadPKCS7(PadPKCS7(b, n)) = b`. -/
theorem claim_C10_pad_unpad (b : List Nat) (n : Nat)
    (h1 : 1 ≤ n) (h2 : n ≤ 255) :
    padPKCS7 b n = some (pkcs7 b n) ∧
    (∃ k, 1 ≤ k ∧ k ≤ n ∧ pkcs7 b n = b ++ List.replicate k k) ∧
    (pkcs7 b n).length % n = 0 ∧
    b.length < (pkcs7 b n).length ∧
    unpadPKCS7 (pkcs7 b n) = some b := by
  have hn : 0 < n := h1
  have hpc := pkcs7_padcount b n hn
  refine ⟨?_, ⟨n - b.length % n, hpc.1, hpc.2, pkcs7_eq b n⟩,
    pkcs7_length_mod b n hn, ?_, unpadPKCS7_pkcs7 b n hn⟩
  · unfold padPKCS7
    rw [if_neg (by omega)]
  · rw [pkcs7_length]
    omega

/-- Witness for C10 at `b = [1, 2, 3]`, `n = 4`. -/
theorem claim_C10_pad_unpad_witness :
    unpadPKCS7 (pkcs7 [1, 2, 3] 4) = some [1, 2, 3] :=
  (claim_C10_pad_unpad [1, 2, 3] 4 (by decide) (by decide)).2.2.2.2

/-! ### Claim C1: mode-engine round trips -/

/-- C1: for every block size in `{8, 16, 32}` (every valid key being an
arbitrary `BlockCipher` of that block size), every input whose length is
a multiple of the block size, and every IV of block length: feeding the
output of the encrypting engine's `CryptBlocks` to the decrypting
engine's `CryptBlocks` returns the input, both for ECB and for CBC. -/
theorem claim_C1_roundtrip (c : BlockCipher)
    (hbs : c.bs = 8 ∨ c.bs = 16 ∨ c.bs = 32)
    (x : List Nat) (hx : x.length % c.bs = 0)
    (iv : List Nat) (hiv : iv.length = c.bs) :
    (ecbEncrypterCryptBlocks c x.length x).bind
      (fun ct => ecbDecrypterCryptBlocks c x.length ct) = .ok x ∧
    (cbcEncrypterCryptBlocks c iv x.length x).bind
      (fun p => (cbcDecrypterCryptBlocks c iv x.length p.1).map Prod.fst)
      = .ok x := by
  have hdvd : c.bs ∣ x.length := Nat.dvd_of_mod_eq_zero hx
  constructor
  · have hct := ecbEncryptBlocks_length c x hdvd
    rw [ecbEncrypterCryptBlocks, if_neg (by omega), if_neg (by omega)]
    show ecbDecrypterCryptBlocks c x.length (ecbEncryptBlocks c x) = _
    rw [ecbDecrypterCryptBlocks, if_neg (by rw [hct]; omega),
      if_neg (by omega), ecbDecryptBlocks_ecbEncryptBlocks c x hdvd]
  · by_cases hempty : x.length = 0
    · have hx0 : x = [] := List.length_eq_zero.mp hempty
      subst hx0
      have he : cbcEncrypterCryptBlocks c iv ([] : List Nat).length []
          = .ok ([], iv) := by
        rw [cbcEncrypterCryptBlocks, if_neg (by simp), if_neg (by simp)]
        simp
      rw [he]
      show (cbcDecrypterCryptBlocks c iv
        ([] : List Nat).length []).map Prod.fst = _
      rw [cbcDecrypterCryptBlocks, if_neg (by simp), if_neg (by simp)]
      simp [Except.map]
    · have hct := cbcEncryptBlocks_length c iv x hiv hdvd
      rw [cbcEncrypterCryptBlocks, if_neg (by omega), if_neg (by omega),
        if_neg hempty]
      show (cbcDecrypterCryptBlocks c iv x.length
        (cbcEncryptBlocks c iv x)).map Prod.fst = _
      rw [cbcDecrypterCryptBlocks, if_neg (by rw [hct]; omega),
        if_neg (by omega), if_neg (by omega),
        cbcDecryptBlocks_cbcEncryptBlocks c iv x hiv hdvd]
      rfl

/-- Witness for C1: block size 16, a 32-byte input, a concrete IV. -/
theorem claim_C1_roundtrip_witness :
    (ecbEncrypterCryptBlocks idCipher16 32
        (List.replicate 15 4 ++ List.replicate 17 9)).bind
      (fun ct => ecbDecrypterCryptBlocks idCipher16 32 ct)
      = .ok (List.replicate 15 4 ++ List.replicate 17 9) ∧
    (cbcEncrypterCryptBlocks idCipher16 (List.replicate 16 7) 32
        (List.replicate 15 4 ++ List.replicate 17 9)).bind
      (fun p => (cbcDecrypterCryptBlocks idCipher16 (List.replicate 16 7)
        32 p.1).map Prod.fst)
      = .ok (List.replicate 15 4 ++ List.replicate 17 9) := by
  have h := claim_C1_roundtrip idCipher16 (Or.inr (Or.inl rfl))
    (List.replicate 15 4 ++ List.replicate 17 9) (by decide)
    (List.replicate 16 7) (by decide)
  simpa using h

/-! ### Concrete second cipher, for cipher-independence statements -/

/-- A 16-byte-block cipher XORing every byte with 1; any second
instance of the primitive, used to state that an erroring `CryptBlocks`
never consulted the primitive. -/
def xorCipher16 : BlockCipher where
  bs := 16
  bs_pos := by decide
  enc := fun b => b.map (fun a => a ^^^ 1)
  dec := fun b => b.map (fun a => a ^^^ 1)
  enc_len := fun b h => by simpa using h
  dec_len := fun b h => by simpa using h
  dec_enc := fun b _ => by
    show List.map (fun a => a ^^^ 1) (List.map (fun a => a ^^^ 1) b) = b
    rw [List.map_map]
    have : ((fun a : Nat => a ^^^ 1) ∘ fun a : Nat => a ^^^ 1) = id := by
      funext a
      exact Nat.xor_cancel_right 1 a
    rw [this, List.map_id]

/-! ### Claim C7: non-multiple input lengths -/

/-- C7: every mode engine variant, fed a source whose length is not a
multiple of the block size, fails with the `InvalidInputLength` panic —
and, the check being first, the result is the same whatever the block
cipher primitive, i.e. the primitive is never invoked. -/
theorem claim_C7_invalid_input_length (c c2 : BlockCipher)
    (hcc : c.bs = c2.bs) (iv : List Nat) (dstLen : Nat)
    (src : List Nat) (hsrc : src.length % c.bs ≠ 0)
    (mem : List Nat) (dst s0 : Slice) (hs0 : s0.len % c.bs ≠ 0) :
    ecbEncrypterCryptBlocks c dstLen src = .error .invalidInputLength ∧
    ecbDecrypterCryptBlocks c dstLen src = .error .invalidInputLength ∧
    cbcDecrypterCryptBlocks c iv dstLen src
      = .error .invalidInputLength ∧
    ecbPkgEncrypterCryptBlocks c mem dst s0
      = .error .invalidInputLength ∧
    ecbPkgDecrypterCryptBlocks c mem dst s0
      = .error .invalidInputLength ∧
    cbcPkgDecrypterCryptBlocks c mem iv dst s0
      = .error .invalidInputLength ∧
    cbcSet2CryptBlocks c mem iv dst s0 = .error .invalidInputLength ∧
    ecbEncrypterCryptBlocks c dstLen src
      = ecbEncrypterCryptBlocks c2 dstLen src ∧
    ecbDecrypterCryptBlocks c dstLen src
      = ecbDecrypterCryptBlocks c2 dstLen src ∧
    cbcDecrypterCryptBlocks c iv dstLen src
      = cbcDecrypterCryptBlocks c2 iv dstLen src := by
  have hsrc2 : src.length % c2.bs ≠ 0 := by rw [← hcc]; exact hsrc
  refine ⟨?_, ?_, ?_, ?_, ?_, ?_, ?_, ?_, ?_, ?_⟩ <;>
    simp [ecbEncrypterCryptBlocks, ecbDecrypterCryptBlocks,
      cbcDecrypterCryptBlocks, ecbPkgEncrypterCryptBlocks,
      ecbPkgDecrypterCryptBlocks, cbcPkgDecrypterCryptBlocks,
      cbcSet2CryptBlocks, hsrc, hsrc2, hs0]

/-- Witness for C7: a 3-byte source against 16-byte blocks, under two
different primitives. -/
theorem claim_C7_invalid_input_length_witness :
    ecbEncrypterCryptBlocks idCipher16 8 [1, 2, 3]
      = .error .invalidInputLength ∧
    cbcSet2CryptBlocks idCipher16 [0, 0, 0, 0] [9, 9] ⟨0, 3⟩ ⟨0, 3⟩
      = .error .invalidInputLength ∧
    ecbEncrypterCryptBlocks idCipher16 8 [1, 2, 3]
      = ecbEncrypterCryptBlocks xorCipher16 8 [1, 2, 3] := by
  have h := claim_C7_invalid_input_length idCipher16 xorCipher16 rfl
    [9, 9] 8 [1, 2, 3] (by decide) [0, 0, 0, 0] ⟨0, 3⟩ ⟨0, 3⟩ (by decide)
  exact ⟨h.1, h.2.2.2.2.2.2.1, h.2.2.2.2.2.2.2.1⟩

/-! ### ECB fingerprint lemmas -/

theorem toBlocks_ecbEncryptBlocks (c : BlockCipher) (pt : List Nat)
    (hdvd : c.bs ∣ pt.length) :
    toBlocks c.bs (ecbEncryptBlocks c pt)
      = (toBlocks c.bs pt).map c.enc := by
  by_cases hx : pt = []
  · subst hx
    rfl
  · have hle : c.bs ≤ pt.length := dvd_length_le hx hdvd c.bs_pos
    have htk : (pt.take c.bs).length = c.bs := by
      simp [List.length_take]; omega
    have henc : (c.enc (pt.take c.bs)).length = c.bs := c.enc_len _ htk
    rw [ecbEncryptBlocks_eq, if_neg hx]
    have hne : c.enc (pt.take c.bs) ++ ecbEncryptBlocks c (pt.drop c.bs)
        ≠ [] := by
      intro hcontra
      have := congrArg List.length hcontra
      have hp := c.bs_pos
      simp [henc] at this
      omega
    rw [toBlocks_eq c.bs c.bs_pos _, if_neg hne, List.take_left' henc,
      List.drop_left' henc,
      toBlocks_ecbEncryptBlocks c (pt.drop c.bs) (dvd_length_drop hdvd),
      toBlocks_eq c.bs c.bs_pos pt, if_neg hx]
    rfl
termination_by pt.length
decreasing_by
  simp only [List.length_drop]
  exact Nat.sub_lt (List.length_pos.mpr hx) c.bs_pos

theorem toBlocks_three (bs : Nat) (hbs : 0 < bs) (pt : List Nat)
    (h : 3 * bs ≤ pt.length) :
    toBlocks bs pt = pt.take bs :: (pt.drop bs).take bs ::
      ((pt.drop bs).drop bs).take bs ::
      toBlocks bs (((pt.drop bs).drop bs).drop bs) := by
  have h1 : pt ≠ [] := by
    intro hx; subst hx; simp at h; omega
  have h2 : pt.drop bs ≠ [] := by
    intro hx
    have := congrArg List.length hx
    simp [List.length_drop] at this
    omega
  have h3 : (pt.drop bs).drop bs ≠ [] := by
    intro hx
    have := congrArg List.length hx
    simp [List.length_drop] at this
    omega
  rw [toBlocks_eq bs hbs pt, if_neg h1,
    toBlocks_eq bs hbs (pt.drop bs), if_neg h2,
    toBlocks_eq bs hbs ((pt.drop bs).drop bs), if_neg h3]

theorem drop_bs_affix_zeros (pre rest : List Nat) (bs : Nat)
    (hp : pre.length ≤ bs) :
    (pre ++ List.replicate (bs * 3) 0 ++ rest).drop bs
      = List.replicate (2 * bs + pre.length) 0 ++ rest := by
  rw [List.append_assoc, List.drop_append_eq_append_drop,
    List.drop_append_eq_append_drop, List.drop_replicate,
    List.drop_eq_nil_of_le hp]
  simp only [List.length_replicate, List.nil_append]
  have h1 : bs * 3 - (bs - pre.length) = 2 * bs + pre.length := by omega
  have h2 : bs - pre.length - (bs * 3) = 0 := by omega
  rw [h1, h2, List.drop_zero]

theorem take_bs_replicate_append (n bs : Nat) (rest : List Nat)
    (h : bs ≤ n) :
    (List.replicate n 0 ++ rest).take bs = List.replicate bs 0 := by
  rw [List.take_append_of_le_length (by simp; omega), List.take_replicate]
  congr 1
  omega

theorem hasRepeatedBlock_cons_cons_self (b0 b1 : List Nat)
    (rest : List (List Nat)) :
    hasRepeatedBlock (b0 :: b1 :: b1 :: rest) = true := by
  show (List.contains (b1 :: b1 :: rest) b0
    || hasRepeatedBlock (b1 :: b1 :: rest)) = true
  have : hasRepeatedBlock (b1 :: b1 :: rest) = true := by
    show (List.contains (b1 :: rest) b1 || hasRepeatedBlock (b1 :: rest))
      = true
    have hc : List.contains (b1 :: rest) b1 = true := by
      simp [List.contains_cons]
    rw [hc, Bool.true_or]
  rw [this, Bool.or_true]

/-- The ECB fingerprint of the probe input: the ciphertext of
`pad(pre || 0^(3*bs) || suf)` under ECB contains a repeated block (its
second and third blocks both encrypt an all-zero block) whenever the
fixed prefix is at most one block long. -/
theorem isECBCiphertext_ecb_affix (c : BlockCipher) (pre suf : List Nat)
    (hp : pre.length ≤ c.bs) :
    isECBCiphertext
      (ecbEncryptBlocks c (pkcs7 (pre ++ List.replicate (c.bs * 3) 0 ++ suf)
        c.bs)) c.bs = true := by
  set pt := pkcs7 (pre ++ List.replicate (c.bs * 3) 0 ++ suf) c.bs with hpt
  have hdvd : c.bs ∣ pt.length := pkcs7_length_dvd _ _ c.bs_pos
  have hctlen : (ecbEncryptBlocks c pt).length = pt.length :=
    ecbEncryptBlocks_length c pt hdvd
  have hmod : (ecbEncryptBlocks c pt).length % c.bs = 0 := by
    rw [hctlen]
    exact Nat.mod_eq_zero_of_dvd hdvd
  rw [isECBCiphertext, if_neg (by omega),
    toBlocks_ecbEncryptBlocks c pt hdvd]
  -- pt = pre ++ 0^(3 bs) ++ (suf ++ padding)
  have hshape : pt = pre ++ List.replicate (c.bs * 3) 0 ++
      (suf ++ List.replicate
        (c.bs - (pre ++ List.replicate (c.bs * 3) 0 ++ suf).length % c.bs)
        (c.bs - (pre ++ List.replicate (c.bs * 3) 0 ++ suf).length % c.bs)) := by
    rw [hpt, pkcs7_eq]
    simp [List.append_assoc]
  have hlen3 : 3 * c.bs ≤ pt.length := by
    rw [hpt, pkcs7_length]
    simp only [List.length_append, List.length_replicate]
    omega
  rw [toBlocks_three c.bs c.bs_pos pt hlen3]
  have hblk1 : (pt.drop c.bs).take c.bs = List.replicate c.bs 0 := by
    rw [hshape, drop_bs_affix_zeros _ _ _ hp,
      take_bs_replicate_append _ _ _ (by omega)]
  have hblk2 : ((pt.drop c.bs).drop c.bs).take c.bs
      = List.replicate c.bs 0 := by
    rw [hshape, drop_bs_affix_zeros _ _ _ hp, List.drop_append_eq_append_drop,
      List.drop_replicate]
    simp only [List.length_replicate]
    have h2 : c.bs - (2 * c.bs + pre.length) = 0 := by omega
    rw [h2, List.drop_zero,
      take_bs_replicate_append _ _ _ (by omega)]
  rw [List.map_cons, List.map_cons, List.map_cons, hblk1, hblk2]
  exact hasRepeatedBlock_cons_cons_self _ _ _

/-! ### Block-structure lemmas for prefix discovery -/

theorem flatten_replicate_length (m : Nat) (x : List Nat) :
    (List.replicate m x).flatten.length = m * x.length := by
  simp [List.length_flatten, List.map_replicate, List.sum_replicate]

theorem flatten_replicate_succ (m : Nat) (x : List Nat) :
    (List.replicate (m + 1) x).flatten
      = x ++ (List.replicate m x).flatten := by
  simp [List.replicate_succ]

theorem drop_comm_flatten_replicate (m s : Nat) (ref : List Nat)
    (hs : s ≤ ref.length) :
    ref.drop s ++ (List.replicate m ref).flatten
      = (List.replicate m (ref.rotate s)).flatten ++ ref.drop s := by
  induction m with
  | zero => simp
  | succ k ih =>
    rw [flatten_replicate_succ, flatten_replicate_succ,
      ← List.append_assoc, List.append_assoc (ref.drop s) ref]
    calc ref.drop s ++ (ref ++ (List.replicate k ref).flatten)
        = (ref.drop s ++ ref.take s) ++
          (ref.drop s ++ (List.replicate k ref).flatten) := by
          rw [List.append_assoc, ← List.append_assoc (ref.take s),
            List.take_append_drop]
      _ = ref.rotate s ++
          ((List.replicate k (ref.rotate s)).flatten ++ ref.drop s) := by
          rw [ih, List.rotate_eq_drop_append_take hs]
      _ = ref.rotate s ++ (List.replicate k (ref.rotate s)).flatten
          ++ ref.drop s := by rw [List.append_assoc]

/-- The repeated reference pattern, split at the first block boundary:
`s` alignment bytes, `reps - 1` copies of the rotated reference block,
and a trailing partial copy. -/
theorem flatten_replicate_split (reps s : Nat) (ref : List Nat)
    (hs : s ≤ ref.length) (hreps : 1 ≤ reps) :
    (List.replicate reps ref).flatten
      = ref.take s ++ (List.replicate (reps - 1) (ref.rotate s)).flatten
        ++ ref.drop s := by
  obtain ⟨m, rfl⟩ : ∃ m, reps = m + 1 := ⟨reps - 1, by omega⟩
  rw [flatten_replicate_succ]
  have h1 : ref ++ (List.replicate m ref).flatten
      = ref.take s ++ (ref.drop s ++ (List.replicate m ref).flatten) := by
    rw [← List.append_assoc, List.take_append_drop]
  rw [h1, drop_comm_flatten_replicate m s ref hs]
  simp [List.append_assoc]

theorem toBlocks_append (bs : Nat) (hbs : 0 < bs) (x y : List Nat)
    (hdvd : bs ∣ x.length) :
    toBlocks bs (x ++ y) = toBlocks bs x ++ toBlocks bs y := by
  by_cases hx : x = []
  · subst hx
    simp [toBlocks_nil]
  · have hle : bs ≤ x.length := dvd_length_le hx hdvd hbs
    have hxyne : x ++ y ≠ [] := by
      intro hc
      exact hx (List.append_eq_nil.mp hc).1
    rw [toBlocks_eq bs hbs (x ++ y), if_neg hxyne, toBlocks_eq bs hbs x,
      if_neg hx]
    have htk : (x ++ y).take bs = x.take bs := by
      rw [List.take_append_eq_append_take]
      have h0 : bs - x.length = 0 := by omega
      rw [h0, List.take_zero, List.append_nil]
    have hdp : (x ++ y).drop bs = x.drop bs ++ y := by
      rw [List.drop_append_eq_append_drop]
      have h0 : bs - x.length = 0 := by omega
      rw [h0, List.drop_zero]
    rw [htk, hdp,
      toBlocks_append bs hbs (x.drop bs) y (dvd_length_drop hdvd)]
    rfl
termination_by x.length
decreasing_by
  simp only [List.length_drop]
  exact Nat.sub_lt (List.length_pos.mpr hx) hbs

theorem toBlocks_flatten_replicate (bs : Nat) (hbs : 0 < bs)
    (m : Nat) (v : List Nat) (hv : v.length = bs) :
    toBlocks bs (List.replicate m v).flatten = List.replicate m v := by
  induction m with
  | zero => simp [toBlocks_nil]
  | succ k ih =>
    have hvne : v ≠ [] := by
      intro hc
      rw [hc] at hv
      simp at hv
      omega
    have hne : (List.replicate (k + 1) v).flatten ≠ [] := by
      rw [flatten_replicate_succ]
      intro hc
      exact hvne (List.append_eq_nil.mp hc).1
    rw [flatten_replicate_succ] at hne ⊢
    rw [toBlocks_eq bs hbs _, if_neg hne]
    have htk : (v ++ (List.replicate k v).flatten).take bs = v := by
      rw [← hv]
      exact List.take_left' rfl
    have hdp : (v ++ (List.replicate k v).flatten).drop bs
        = (List.replicate k v).flatten := by
      rw [← hv]
      exact List.drop_left' rfl
    rw [htk, hdp, ih]
    rfl

theorem toBlocks_length_of_dvd (bs : Nat) (hbs : 0 < bs) (l : List Nat)
    (hdvd : bs ∣ l.length) :
    (toBlocks bs l).length = l.length / bs := by
  by_cases hx : l = []
  · subst hx
    simp [toBlocks_nil]
  · have hle : bs ≤ l.length := dvd_length_le hx hdvd hbs
    rw [toBlocks_eq bs hbs l, if_neg hx, List.length_cons,
      toBlocks_length_of_dvd bs hbs (l.drop bs) (dvd_length_drop hdvd),
      List.length_drop]
    obtain ⟨q, hq⟩ := hdvd
    have hq1 : 1 ≤ q := by
      rcases Nat.eq_zero_or_pos q with h0 | h1
      · subst h0
        rw [Nat.mul_zero] at hq
        omega
      · exact h1
    rw [hq]
    have h1 : bs * q - bs = bs * (q - 1) := by
      rw [Nat.mul_sub, Nat.mul_one]
    rw [h1, Nat.mul_div_cancel_left _ hbs, Nat.mul_div_cancel_left _ hbs]
    omega
termination_by l.length
decreasing_by
  simp only [List.length_drop]
  exact Nat.sub_lt (List.length_pos.mpr hx) hbs

theorem toBlocks_mem_length (bs : Nat) (hbs : 0 < bs) (l : List Nat)
    (hdvd : bs ∣ l.length) (blk : List Nat)
    (hblk : blk ∈ toBlocks bs l) : blk.length = bs := by
  by_cases hx : l = []
  · subst hx
    simp [toBlocks_nil] at hblk
  · have hle : bs ≤ l.length := dvd_length_le hx hdvd hbs
    rw [toBlocks_eq bs hbs l, if_neg hx] at hblk
    rcases List.mem_cons.mp hblk with hc | hc
    · rw [hc]
      simp only [List.length_take]
      omega
    · exact toBlocks_mem_length bs hbs (l.drop bs) (dvd_length_drop hdvd)
        blk hc
termination_by l.length
decreasing_by
  simp only [List.length_drop]
  exact Nat.sub_lt (List.length_pos.mpr hx) hbs

/-! ### Most-frequent-block and first-occurrence lemmas -/

theorem mostFrequentBlock_eq (A B : List (List Nat)) (M : Nat)
    (v : List Nat) (hM : A.length + B.length < M) :
    mostFrequentBlock (A ++ List.replicate M v ++ B) = some v := by
  set blocks := A ++ List.replicate M v ++ B with hblocks
  have hvmem : v ∈ blocks := by
    rw [hblocks]
    have : v ∈ List.replicate M v := List.mem_replicate.mpr ⟨by omega, rfl⟩
    simp [this]
  have hcv : M ≤ blocks.count v := by
    rw [hblocks]
    rw [List.count_append, List.count_append, List.count_replicate]
    simp only [beq_self_eq_true, if_true]
    omega
  have hcu : ∀ u, u ≠ v → blocks.count u ≤ A.length + B.length := by
    intro u hu
    rw [hblocks, List.count_append, List.count_append,
      List.count_replicate]
    have h0 : (if (v == u) = true then M else 0) = 0 := by
      rw [if_neg]
      simp
      exact fun hc => hu hc.symm
    rw [h0]
    have := List.count_le_length u A
    have := List.count_le_length u B
    omega
  unfold mostFrequentBlock
  match hm : blocks.argmax (fun b => blocks.count b) with
  | none =>
    rw [List.argmax_eq_none] at hm
    rw [hm] at hvmem
    simp at hvmem
  | some m =>
    have hmmem : m ∈ blocks := List.argmax_mem hm
    have hle : blocks.count v ≤ blocks.count m :=
      List.le_of_mem_argmax hvmem hm
    by_cases hmv : m = v
    · rw [hmv]
    · have := hcu m hmv
      omega

theorem findBlockIdx_append (A : List (List Nat)) (v : List Nat)
    (rest : List (List Nat)) (hA : ∀ x ∈ A, x ≠ v) :
    findBlockIdx v (A ++ v :: rest) = some A.length := by
  induction A with
  | nil =>
    show findBlockIdx v (v :: rest) = some 0
    unfold findBlockIdx
    rw [if_pos (by simp)]
  | cons a A ih =>
    show findBlockIdx v (a :: (A ++ v :: rest)) = some (A.length + 1)
    unfold findBlockIdx
    rw [if_neg (by simpa using hA a (by simp)),
      ih (fun x hx => hA x (List.mem_cons_of_mem a hx))]
    rfl

theorem align_mod (bs p : Nat) (hbs : 0 < bs) :
    (p + (bs - p % bs) % bs) % bs = 0 := by
  by_cases h0 : p % bs = 0
  · rw [h0, Nat.sub_zero, Nat.mod_self, Nat.add_zero, h0]
  · have hplt : p % bs < bs := Nat.mod_lt p hbs
    have hlt : bs - p % bs < bs := by omega
    rw [Nat.mod_eq_of_lt hlt]
    have key : p + (bs - p % bs) = bs * (p / bs + 1) := by
      have := Nat.div_add_mod p bs
      rw [Nat.mul_add, Nat.mul_one]
      omega
    rw [key]
    exact Nat.mul_mod_right _ _

/-- The spec-modelled prefix-length discovery returns the prefix
length rounded *up* to the next block boundary.  Prepending padding
bytes shifts the phase of the repeated reference pattern relative to
the block grid, so the magic block identified from the unpadded probe
recurs only with zero extra padding, where its first occurrence sits
at the first block boundary at or after the prefix. -/
theorem discoverPrefixLength_eq (c : BlockCipher)
    (pre secret ref : List Nat) (reps : Nat)
    (href : ref.length = c.bs)
    (hreps : pre.length + secret.length + 5 ≤ reps)
    (hA : ∀ blk ∈ toBlocks c.bs
      (pre ++ ref.take ((c.bs - pre.length % c.bs) % c.bs)),
      blk ≠ ref.rotate ((c.bs - pre.length % c.bs) % c.bs)) :
    discoverPrefixLength c.bs reps ref
      (mkECBPrefixSuffixOracle c pre secret)
      = some (pre.length + (c.bs - pre.length % c.bs) % c.bs) := by
  have hbs := c.bs_pos
  set p := pre.length with hp
  set s := (c.bs - p % c.bs) % c.bs with hsdef
  have hs_lt : s < c.bs := Nat.mod_lt _ hbs
  have hs_le : s ≤ ref.length := by omega
  have hps : (p + s) % c.bs = 0 := align_mod c.bs p hbs
  have hps_dvd : c.bs ∣ (p + s) := Nat.dvd_of_mod_eq_zero hps
  have hreps1 : 1 ≤ reps := by omega
  set rot := ref.rotate s with hrot
  have hrotlen : rot.length = c.bs := by
    rw [hrot, List.length_rotate, href]
  set probe := (List.replicate reps ref).flatten with hprobe
  have hprobelen : probe.length = reps * c.bs := by
    rw [hprobe, flatten_replicate_length, href]
  set w := c.bs - (pre ++ probe ++ secret).length % c.bs with hw
  have hwle : w ≤ c.bs := by omega
  set pt := pkcs7 (pre ++ probe ++ secret) c.bs with hpt
  have hPT : c.bs ∣ pt.length := pkcs7_length_dvd _ _ hbs
  set X := pre ++ ref.take s with hX
  set Y := ref.drop s ++ (secret ++ List.replicate w w) with hY
  have hXlen : X.length = p + s := by
    rw [hX]
    simp only [List.length_append, List.length_take]
    omega
  have hXdvd : c.bs ∣ X.length := by
    rw [hXlen]
    exact hps_dvd
  have hYlen : Y.length = (c.bs - s) + (secret.length + w) := by
    rw [hY]
    simp only [List.length_append, List.length_drop,
      List.length_replicate, href]
  have hsplit := flatten_replicate_split reps s ref hs_le hreps1
  have hptshape : pt = X ++
      ((List.replicate (reps - 1) rot).flatten ++ Y) := by
    rw [hpt, pkcs7_eq, ← hw, hX, hY, hrot, hprobe, hsplit]
    simp [List.append_assoc]
  have hYdvd : c.bs ∣ Y.length := by
    have hlensum := congrArg List.length hptshape
    simp only [List.length_append, flatten_replicate_length,
      hrotlen] at hlensum
    have h1 : Y.length = pt.length - X.length - (reps - 1) * c.bs := by
      omega
    rw [h1, hXlen]
    exact Nat.dvd_sub' (Nat.dvd_sub' hPT hps_dvd)
      (dvd_mul_left c.bs (reps - 1))
  set A := toBlocks c.bs X with hAdef
  set B := toBlocks c.bs Y with hBdef
  have hAlen : A.length = (p + s) / c.bs := by
    rw [hAdef, toBlocks_length_of_dvd c.bs hbs X hXdvd, hXlen]
  have hAbound : A.length ≤ p + 1 := by
    rw [hAlen]
    have h1 : p + s ≤ (p + 1) * c.bs := by
      rw [Nat.add_mul, Nat.one_mul]
      have := Nat.le_mul_of_pos_right p hbs
      omega
    calc (p + s) / c.bs ≤ ((p + 1) * c.bs) / c.bs :=
        Nat.div_le_div_right h1
      _ = p + 1 := Nat.mul_div_cancel _ hbs
  have hBbound : B.length ≤ secret.length + 2 := by
    rw [hBdef, toBlocks_length_of_dvd c.bs hbs Y hYdvd]
    have h1 : Y.length ≤ (secret.length + 2) * c.bs := by
      rw [hYlen, Nat.add_mul]
      have := Nat.le_mul_of_pos_right secret.length hbs
      omega
    calc Y.length / c.bs ≤ ((secret.length + 2) * c.bs) / c.bs :=
        Nat.div_le_div_right h1
      _ = secret.length + 2 := Nat.mul_div_cancel _ hbs
  have hblocks : toBlocks c.bs pt
      = A ++ (List.replicate (reps - 1) rot ++ B) := by
    rw [hptshape,
      toBlocks_append c.bs hbs X
        ((List.replicate (reps - 1) rot).flatten ++ Y) hXdvd,
      toBlocks_append c.bs hbs ((List.replicate (reps - 1) rot).flatten) Y
        (by rw [flatten_replicate_length, hrotlen]
            exact dvd_mul_left c.bs (reps - 1)),
      toBlocks_flatten_replicate c.bs hbs (reps - 1) rot hrotlen]
  have horacle : mkECBPrefixSuffixOracle c pre secret probe
      = ecbEncryptBlocks c pt := by
    rw [hpt]
    rfl
  have hctblocks : toBlocks c.bs
      (mkECBPrefixSuffixOracle c pre secret probe)
      = A.map c.enc ++ (List.replicate (reps - 1) (c.enc rot)
        ++ B.map c.enc) := by
    rw [horacle, toBlocks_ecbEncryptBlocks c pt hPT, hblocks]
    simp [List.map_append, List.map_replicate]
  have hmf : mostFrequentBlock (toBlocks c.bs
      (mkECBPrefixSuffixOracle c pre secret probe))
      = some (c.enc rot) := by
    rw [hctblocks, ← List.append_assoc]
    apply mostFrequentBlock_eq
    simp only [List.length_map]
    omega
  have hAne : ∀ x ∈ A.map c.enc, x ≠ c.enc rot := by
    intro x hx hc
    obtain ⟨blk, hblk, rfl⟩ := List.mem_map.mp hx
    have hblen : blk.length = c.bs :=
      toBlocks_mem_length c.bs hbs X hXdvd blk hblk
    have hbr : blk = rot := by
      have hd := congrArg c.dec hc
      rwa [c.dec_enc _ hblen, c.dec_enc _ hrotlen] at hd
    exact hA blk hblk hbr
  have hrep_cons : List.replicate (reps - 1) (c.enc rot)
      = c.enc rot :: List.replicate (reps - 2) (c.enc rot) := by
    obtain ⟨k, hk⟩ : ∃ k, reps - 1 = k + 1 := ⟨reps - 2, by omega⟩
    rw [hk, List.replicate_succ]
    congr 2
    omega
  have hfbi : findBlockIdx (c.enc rot) (toBlocks c.bs
      (mkECBPrefixSuffixOracle c pre secret probe))
      = some A.length := by
    rw [hctblocks, hrep_cons, List.cons_append]
    have := findBlockIdx_append (A.map c.enc) (c.enc rot)
      (List.replicate (reps - 2) (c.enc rot) ++ B.map c.enc) hAne
    simpa using this
  show (match mostFrequentBlock (toBlocks c.bs
      (mkECBPrefixSuffixOracle c pre secret probe)) with
    | none => none
    | some magic =>
      (List.range c.bs).findSome? (fun a =>
        match findBlockIdx magic (toBlocks c.bs
          (mkECBPrefixSuffixOracle c pre secret (ref.take a ++ probe)))
            with
        | some i => some (i * c.bs - a)
        | none => none)) = some (p + s)
  rw [hmf]
  show (List.range c.bs).findSome? (fun a =>
      match findBlockIdx (c.enc rot) (toBlocks c.bs
        (mkECBPrefixSuffixOracle c pre secret (ref.take a ++ probe)))
          with
      | some i => some (i * c.bs - a)
      | none => none) = some (p + s)
  obtain ⟨b1, hb1⟩ : ∃ b1, c.bs = b1 + 1 := ⟨c.bs - 1, by omega⟩
  rw [hb1] at hfbi
  rw [hb1, List.range_succ_eq_map, List.findSome?_cons]
  have hzero : ref.take 0 ++ probe = probe := rfl
  rw [hzero, hfbi]
  show some (A.length * (b1 + 1) - 0) = some (p + s)
  rw [← hb1, hAlen, Nat.sub_zero, Nat.div_mul_cancel hps_dvd]

/-! ### find? helpers -/

theorem find?_eq_some_of_unique {l : List Nat} {P : Nat → Bool} {t : Nat}
    (ht : t ∈ l) (hiff : ∀ b ∈ l, (P b = true ↔ b = t)) :
    l.find? P = some t := by
  induction l with
  | nil => simp at ht
  | cons a l ih =>
    by_cases hpa : P a = true
    · rw [List.find?_cons_of_pos _ hpa, (hiff a (by simp)).mp hpa]
    · have hat : a ≠ t := fun hc => hpa ((hiff a (by simp)).mpr hc)
      have ht2 : t ∈ l := by
        rcases List.mem_cons.mp ht with hc | hc
        · exact absurd hc.symm hat
        · exact hc
      rw [List.find?_cons_of_neg _ (by simp [Bool.not_eq_true] at hpa ⊢; exact hpa)]
      exact ih ht2 (fun b hb => hiff b (List.mem_cons_of_mem a hb))

theorem find?_eq_none_of_all {l : List Nat} {P : Nat → Bool}
    (h : ∀ b ∈ l, P b = false) : l.find? P = none := by
  rw [List.find?_eq_none]
  intro x hx
  simp [h x hx]

/-! ### Blockwise prefix and injectivity lemmas -/

theorem ecbEncryptBlocks_take (c : BlockCipher) (m : Nat) (pt : List Nat)
    (hdvd : c.bs ∣ pt.length) :
    (ecbEncryptBlocks c pt).take (m * c.bs)
      = ecbEncryptBlocks c (pt.take (m * c.bs)) := by
  induction m generalizing pt with
  | zero => simp [ecbEncryptBlocks_nil]
  | succ k ih =>
    by_cases hx : pt = []
    · subst hx
      simp [ecbEncryptBlocks_nil]
    · have hbs := c.bs_pos
      have hle : c.bs ≤ pt.length := dvd_length_le hx hdvd c.bs_pos
      have htk : (pt.take c.bs).length = c.bs := by
        simp only [List.length_take]
        omega
      have henc : (c.enc (pt.take c.bs)).length = c.bs := c.enc_len _ htk
      have hkbs : c.bs ≤ (k + 1) * c.bs :=
        Nat.le_mul_of_pos_left c.bs (Nat.succ_pos k)
      have htkne : pt.take ((k + 1) * c.bs) ≠ [] := by
        intro hc
        have hlen0 := congrArg List.length hc
        simp only [List.length_take, List.length_nil] at hlen0
        have hlp := List.length_pos.mpr hx
        omega
      rw [ecbEncryptBlocks_eq c pt, if_neg hx,
        List.take_append_eq_append_take,
        List.take_of_length_le (by rw [henc]; exact hkbs), henc,
        ecbEncryptBlocks_eq c (pt.take ((k + 1) * c.bs)), if_neg htkne,
        List.take_take, Nat.min_eq_left hkbs, List.drop_take]
      have harith : (k + 1) * c.bs - c.bs = k * c.bs := by
        rw [Nat.succ_mul]
        omega
      rw [harith, ih (pt.drop c.bs) (dvd_length_drop hdvd)]

theorem ecbEncryptBlocks_inj (c : BlockCipher) (a b : List Nat)
    (hda : c.bs ∣ a.length) (hlen : a.length = b.length)
    (h : ecbEncryptBlocks c a = ecbEncryptBlocks c b) : a = b := by
  by_cases hxa : a = []
  · subst hxa
    have hb0 : b.length = 0 := by simpa using hlen.symm
    exact (List.length_eq_zero.mp hb0).symm
  · have hxb : b ≠ [] := by
      intro hb
      subst hb
      simp at hlen
      exact hxa hlen
    have hla : c.bs ≤ a.length := dvd_length_le hxa hda c.bs_pos
    have htka : (a.take c.bs).length = c.bs := by
      simp only [List.length_take]; omega
    have htkb : (b.take c.bs).length = c.bs := by
      simp only [List.length_take]; omega
    have henca : (c.enc (a.take c.bs)).length = c.bs := c.enc_len _ htka
    have hencb : (c.enc (b.take c.bs)).length = c.bs := c.enc_len _ htkb
    rw [ecbEncryptBlocks_eq c a, if_neg hxa,
      ecbEncryptBlocks_eq c b, if_neg hxb] at h
    obtain ⟨hhead, htail⟩ := List.append_inj h (by rw [henca, hencb])
    have hblocks : a.take c.bs = b.take c.bs := by
      have := congrArg c.dec hhead
      rwa [c.dec_enc _ htka, c.dec_enc _ htkb] at this
    have hrest : a.drop c.bs = b.drop c.bs :=
      ecbEncryptBlocks_inj c (a.drop c.bs) (b.drop c.bs)
        (dvd_length_drop hda)
        (by simp only [List.length_drop]; omega) htail
    calc a = a.take c.bs ++ a.drop c.bs := (List.take_append_drop _ _).symm
      _ = b.take c.bs ++ b.drop c.bs := by rw [hblocks, hrest]
      _ = b := List.take_append_drop _ _
termination_by a.length
decreasing_by
  simp only [List.length_drop]
  exact Nat.sub_lt (List.length_pos.mpr hxa) c.bs_pos

/-! ### Alignment arithmetic for the recovery engine -/

theorem filler_sum_mul (bs n : Nat) (hbs : 0 < bs) :
    (bs - n % bs - 1) + (n + 1) = (n / bs + 1) * bs := by
  have h1 := Nat.div_add_mod n bs
  have h2 : n % bs < bs := Nat.mod_lt n hbs
  rw [Nat.add_mul, Nat.one_mul, Nat.mul_comm (n / bs) bs]
  omega

theorem padcount_at_S (bs S : Nat) (hbs : 0 < bs) :
    bs - ((bs - S % bs - 1) + S) % bs = 1 := by
  have h1 := Nat.div_add_mod S bs
  have h2 : S % bs < bs := Nat.mod_lt S hbs
  have key : (bs - S % bs - 1) + S = (bs - 1) + bs * (S / bs) := by omega
  rw [key, Nat.add_mul_mod_self_left, Nat.mod_eq_of_lt (by omega)]
  omega

theorem padcount_at_S1 (bs S : Nat) (hbs : 2 ≤ bs) :
    bs - ((bs - (S + 1) % bs - 1) + S) % bs = 2 := by
  have h1 := Nat.div_add_mod S bs
  have h2 : S % bs < bs := Nat.mod_lt S (by omega)
  by_cases hr : S % bs = bs - 1
  · have hs1 : (S + 1) % bs = 0 := by
      have key : S + 1 = 0 + bs * (S / bs + 1) := by
        rw [Nat.mul_add, Nat.mul_one]
        omega
      rw [key, Nat.add_mul_mod_self_left, Nat.zero_mod]
    rw [hs1]
    have key2 : (bs - 0 - 1) + S = (bs - 2) + bs * (S / bs + 1) := by
      rw [Nat.mul_add, Nat.mul_one]
      omega
    rw [key2, Nat.add_mul_mod_self_left, Nat.mod_eq_of_lt (by omega)]
    omega
  · have hs1 : (S + 1) % bs = S % bs + 1 := by
      have key : S + 1 = (S % bs + 1) + bs * (S / bs) := by omega
      rw [key, Nat.add_mul_mod_self_left, Nat.mod_eq_of_lt (by omega)]
    rw [hs1]
    have key2 : (bs - (S % bs + 1) - 1) + S = (bs - 2) + bs * (S / bs) := by
      omega
    rw [key2, Nat.add_mul_mod_self_left, Nat.mod_eq_of_lt (by omega)]
    omega

/-! ### Ciphertext-prefix comparisons for the suffix oracle -/

theorem suffix_oracle_take_input (c : BlockCipher)
    (secret input : List Nat) (m : Nat) (hm : input.length = m * c.bs) :
    (mkECBSuffixOracle c secret input).take input.length
      = ecbEncryptBlocks c input := by
  show (ecbEncryptBlocks c (pkcs7 (input ++ secret) c.bs)).take
    input.length = _
  rw [hm, ecbEncryptBlocks_take c m _ (pkcs7_length_dvd _ _ c.bs_pos)]
  congr 1
  rw [pkcs7_eq, List.append_assoc, ← hm]
  exact List.take_left' rfl

theorem suffix_oracle_take_want (c : BlockCipher)
    (secret filler : List Nat) (m t : Nat)
    (hk : filler.length + t = m * c.bs) :
    (mkECBSuffixOracle c secret filler).take (m * c.bs)
      = ecbEncryptBlocks c (filler ++ (secret ++ List.replicate
          (c.bs - (filler.length + secret.length) % c.bs)
          (c.bs - (filler.length + secret.length) % c.bs)).take t) := by
  show (ecbEncryptBlocks c (pkcs7 (filler ++ secret) c.bs)).take
    (m * c.bs) = _
  rw [ecbEncryptBlocks_take c m _ (pkcs7_length_dvd _ _ c.bs_pos)]
  congr 1
  rw [pkcs7_eq, List.length_append, List.append_assoc,
    List.take_append_eq_append_take,
    List.take_of_length_le (by omega)]
  have ht : m * c.bs - filler.length = t := by omega
  rw [ht]

theorem suffix_matchCond_iff (c : BlockCipher)
    (secret filler res : List Nat) (b : Nat)
    (hfl : filler.length + (res.length + 1)
      = (res.length / c.bs + 1) * c.bs)
    (hnw : res.length + 1 ≤ secret.length +
      (c.bs - (filler.length + secret.length) % c.bs)) :
    ((mkECBSuffixOracle c secret (filler ++ res ++ [b])).take
        (filler ++ res ++ [b]).length
      = (mkECBSuffixOracle c secret filler).take
        (filler ++ res ++ [b]).length)
    ↔ res ++ [b] = (secret ++ List.replicate
        (c.bs - (filler.length + secret.length) % c.bs)
        (c.bs - (filler.length + secret.length) % c.bs)).take
        (res.length + 1) := by
  have hkin : (filler ++ res ++ [b]).length
      = (res.length / c.bs + 1) * c.bs := by
    simp only [List.length_append, List.length_cons, List.length_nil]
    omega
  rw [suffix_oracle_take_input c secret (filler ++ res ++ [b]) _ hkin,
    hkin,
    suffix_oracle_take_want c secret filler (res.length / c.bs + 1)
      (res.length + 1) hfl]
  constructor
  · intro h
    have := ecbEncryptBlocks_inj c (filler ++ res ++ [b]) _
      (by rw [hkin]; exact Dvd.intro_left _ rfl)
      (by
        simp only [List.length_append, List.length_cons, List.length_nil,
          List.length_take, List.length_replicate]
        omega) h
    rw [List.append_assoc] at this
    exact (List.append_right_inj filler).mp this
  · intro h
    rw [List.append_assoc, h]

/-! ### The guess loop, round by round -/

/-- While `n ≤ |secret|`, the round with `n` bytes recovered finds
exactly the next byte of `secret ++ [1]` (the secret followed by the
first padding byte): every candidate in `0..254` compares equal to the
reference ciphertext prefix exactly when it is that byte. -/
theorem guessLoop_suffix_some (c : BlockCipher) (secret : List Nat)
    (hbs2 : 2 ≤ c.bs) (hsec : ∀ a ∈ secret, a < 255) (n : Nat)
    (hn : n ≤ secret.length) :
    guessLoop (mkECBSuffixOracle c secret)
      (List.replicate (c.bs - n % c.bs - 1) 0) ((secret ++ [1]).take n)
      (mkECBSuffixOracle c secret
        (List.replicate (c.bs - n % c.bs - 1) 0))
    = some ((secret ++ [1]).get ⟨n, by simp; omega⟩) := by
  have hbs : 0 < c.bs := by omega
  set t := (secret ++ [1]).get ⟨n, by simp; omega⟩ with hts
  set filler : List Nat := List.replicate (c.bs - n % c.bs - 1) 0
    with hfiller
  set res := (secret ++ [1]).take n with hres
  have hreslen : res.length = n := by
    rw [hres]
    simp
    omega
  have hfl : filler.length + (res.length + 1)
      = (res.length / c.bs + 1) * c.bs := by
    rw [hreslen, hfiller, List.length_replicate]
    exact filler_sum_mul c.bs n hbs
  have hwpos : 1 ≤ c.bs - (filler.length + secret.length) % c.bs := by
    have := Nat.mod_lt (filler.length + secret.length) hbs
    omega
  have hnw : res.length + 1 ≤ secret.length +
      (c.bs - (filler.length + secret.length) % c.bs) := by
    rw [hreslen]
    omega
  have htarget : (secret ++ List.replicate
      (c.bs - (filler.length + secret.length) % c.bs)
      (c.bs - (filler.length + secret.length) % c.bs)).take
      (res.length + 1) = res ++ [t] := by
    rw [hreslen]
    by_cases hlt : n < secret.length
    · have h1 : (secret ++ List.replicate
          (c.bs - (filler.length + secret.length) % c.bs)
          (c.bs - (filler.length + secret.length) % c.bs)).take (n + 1)
          = secret.take (n + 1) :=
        List.take_append_of_le_length (by omega)
      have h2 : res = secret.take n := by
        rw [hres]
        exact List.take_append_of_le_length (by omega)
      have h3 : t = secret.get ⟨n, hlt⟩ := by
        rw [hts]
        exact List.get_append n hlt
      rw [h1, h2, h3, List.take_succ, List.getElem?_eq_getElem hlt]
      rfl
    · have hnS : n = secret.length := by omega
      have hw : c.bs - (filler.length + secret.length) % c.bs = 1 := by
        rw [hfiller, List.length_replicate, hnS]
        exact padcount_at_S c.bs secret.length hbs
      have h2 : res = secret := by
        rw [hres, hnS, List.take_append_of_le_length (by omega),
          List.take_of_length_le (by omega)]
      have h3 : t = 1 := by
        rw [hts]
        simp only [List.get_eq_getElem]
        rw [List.getElem_append_right (by omega)]
        simp
      rw [hw, hnS, h2, h3]
      have hrep : List.replicate 1 1 = ([1] : List Nat) := rfl
      rw [hrep, List.take_of_length_le (by simp)]
  have htlt : t < 255 := by
    rw [hts]
    by_cases hlt : n < secret.length
    · rw [List.get_append n hlt]
      exact hsec _ (List.get_mem secret n hlt)
    · have hnS : n = secret.length := by omega
      simp only [List.get_eq_getElem]
      rw [List.getElem_append_right (by omega)]
      simp
  show (List.range 255).find? _ = some t
  apply find?_eq_some_of_unique (List.mem_range.mpr htlt)
  intro b hb
  rw [decide_eq_true_eq,
    suffix_matchCond_iff c secret filler res b hfl hnw, htarget]
  constructor
  · intro h
    have := (List.append_right_inj res).mp h
    simpa using this
  · intro h
    rw [h]

/-- Once `secret ++ [1]` has been recovered, no candidate byte matches:
the reference output now pads with `[2, 2]`, which disagrees with the
already-recovered `1` in the final position. -/
theorem guessLoop_suffix_none (c : BlockCipher) (secret : List Nat)
    (hbs2 : 2 ≤ c.bs) :
    guessLoop (mkECBSuffixOracle c secret)
      (List.replicate (c.bs - (secret.length + 1) % c.bs - 1) 0)
      (secret ++ [1])
      (mkECBSuffixOracle c secret
        (List.replicate (c.bs - (secret.length + 1) % c.bs - 1) 0))
    = none := by
  have hbs : 0 < c.bs := by omega
  set filler : List Nat :=
    List.replicate (c.bs - (secret.length + 1) % c.bs - 1) 0 with hfiller
  set res := secret ++ [1] with hres
  have hreslen : res.length = secret.length + 1 := by simp [hres]
  have hfl : filler.length + (res.length + 1)
      = (res.length / c.bs + 1) * c.bs := by
    rw [hreslen, hfiller, List.length_replicate]
    exact filler_sum_mul c.bs (secret.length + 1) hbs
  have hw : c.bs - (filler.length + secret.length) % c.bs = 2 := by
    rw [hfiller, List.length_replicate]
    exact padcount_at_S1 c.bs secret.length hbs2
  have hnw : res.length + 1 ≤ secret.length +
      (c.bs - (filler.length + secret.length) % c.bs) := by
    rw [hreslen, hw]
  apply find?_eq_none_of_all
  intro b _
  rw [Bool.eq_false_iff]
  intro hP
  rw [decide_eq_true_eq,
    suffix_matchCond_iff c secret filler res b hfl hnw, hw] at hP
  have hrep : List.replicate 2 2 = ([2, 2] : List Nat) := rfl
  rw [hrep, hreslen, List.take_of_length_le (by simp), hres,
    List.append_assoc] at hP
  have := (List.append_right_inj secret).mp hP
  simp at this

/-! ### IsECBOracle lemmas -/

theorem isECBOracle_eq (fuel : Nat) (oracle : List Nat → List Nat)
    (bs : Nat) (hfb : findBlockSize fuel oracle = some bs)
    (hbs1 : bs ≠ 1) :
    isECBOracle fuel oracle
      = some (isECBCiphertext (oracle (List.replicate (bs * 3) 0)) bs) := by
  unfold isECBOracle
  rw [hfb]
  show (if bs = 1 then some false
    else some (isECBCiphertext (oracle (List.replicate (bs * 3) 0)) bs)) = _
  rw [if_neg hbs1]

/-- The challenge-11 oracle in ECB mode fingerprints as ECB. -/
theorem isECBOracle_affix_ecb (c : BlockCipher) (iv pre suf : List Nat)
    (hiv : iv.length = c.bs) (hp : pre.length ≤ c.bs) (hbs2 : 2 ≤ c.bs)
    (fuel : Nat) (hfuel : c.bs ≤ fuel) :
    isECBOracle fuel (mkECBOrCBCPrefixSuffixOracle c iv pre suf true)
      = some true := by
  have hfb : findBlockSize fuel
      (mkECBOrCBCPrefixSuffixOracle c iv pre suf true) = some c.bs :=
    findBlockSize_padded _ (pre.length + suf.length) c.bs c.bs_pos
      (mkECBOrCBCPrefixSuffixOracle_length c iv pre suf hiv true) fuel hfuel
  rw [isECBOracle_eq fuel _ c.bs hfb (by omega)]
  congr 1
  show isECBCiphertext
    (ecbEncryptBlocks c
      (pkcs7 (pre ++ List.replicate (c.bs * 3) 0 ++ suf) c.bs)) c.bs = _
  exact isECBCiphertext_ecb_affix c pre suf hp

/-- The challenge-11 oracle in CBC mode fingerprints as non-ECB exactly
when the probe's CBC ciphertext has no repeated block. -/
theorem isECBOracle_affix_cbc (c : BlockCipher) (iv pre suf : List Nat)
    (hiv : iv.length = c.bs) (hbs2 : 2 ≤ c.bs)
    (fuel : Nat) (hfuel : c.bs ≤ fuel)
    (hnorep : hasRepeatedBlock (toBlocks c.bs (cbcEncryptBlocks c iv
      (pkcs7 (pre ++ List.replicate (c.bs * 3) 0 ++ suf) c.bs))) = false) :
    isECBOracle fuel (mkECBOrCBCPrefixSuffixOracle c iv pre suf false)
      = some false := by
  have hfb : findBlockSize fuel
      (mkECBOrCBCPrefixSuffixOracle c iv pre suf false) = some c.bs :=
    findBlockSize_padded _ (pre.length + suf.length) c.bs c.bs_pos
      (mkECBOrCBCPrefixSuffixOracle_length c iv pre suf hiv false) fuel hfuel
  rw [isECBOracle_eq fuel _ c.bs hfb (by omega)]
  congr 1
  show isECBCiphertext
    (cbcEncryptBlocks c iv
      (pkcs7 (pre ++ List.replicate (c.bs * 3) 0 ++ suf) c.bs)) c.bs = _
  have hdvd : c.bs ∣ (pkcs7 (pre ++ List.replicate (c.bs * 3) 0 ++ suf)
      c.bs).length := pkcs7_length_dvd _ _ c.bs_pos
  have hlen := cbcEncryptBlocks_length c iv
    (pkcs7 (pre ++ List.replicate (c.bs * 3) 0 ++ suf) c.bs) hiv hdvd
  rw [isECBCiphertext,
    if_neg (by rw [hlen]; simpa using Nat.mod_eq_zero_of_dvd hdvd),
    hnorep]

/-! ### The round loop and full recovery -/

theorem recoverRounds_succ (oracle : List Nat → List Nat)
    (bs fuel : Nat) (res : List Nat) :
    recoverRounds oracle bs (fuel + 1) res =
      match guessLoop oracle (List.replicate (bs - res.length % bs - 1) 0)
        res (oracle (List.replicate (bs - res.length % bs - 1) 0)) with
      | some b => recoverRounds oracle bs fuel (res ++ [b])
      | none => some res := rfl

theorem recoverRounds_complete (c : BlockCipher) (secret : List Nat)
    (hbs2 : 2 ≤ c.bs) (hsec : ∀ a ∈ secret, a < 255)
    (fuel n : Nat) (hn : n ≤ secret.length + 1)
    (hfuel : secret.length + 2 - n ≤ fuel) :
    recoverRounds (mkECBSuffixOracle c secret) c.bs fuel
      ((secret ++ [1]).take n) = some (secret ++ [1]) := by
  match fuel with
  | 0 => omega
  | fuel + 1 =>
    have hreslen : ((secret ++ [1]).take n).length = n := by
      simp
      omega
    rw [recoverRounds_succ, hreslen]
    by_cases hns : n ≤ secret.length
    · rw [guessLoop_suffix_some c secret hbs2 hsec n hns]
      show recoverRounds (mkECBSuffixOracle c secret) c.bs fuel
        ((secret ++ [1]).take n
          ++ [(secret ++ [1]).get ⟨n, by simp; omega⟩])
        = some (secret ++ [1])
      have hb : n < (secret ++ [1]).length := by simp; omega
      have hsucc : (secret ++ [1]).take n
          ++ [(secret ++ [1]).get ⟨n, by simp; omega⟩]
          = (secret ++ [1]).take (n + 1) := by
        rw [List.take_succ, List.getElem?_eq_getElem hb]
        rfl
      rw [hsucc]
      exact recoverRounds_complete c secret hbs2 hsec fuel (n + 1)
        (by omega) (by omega)
    · have hn1 : n = secret.length + 1 := by omega
      have hresfull : (secret ++ [1]).take n = secret ++ [1] := by
        rw [hn1]
        exact List.take_of_length_le (by simp)
      rw [hresfull, hn1, guessLoop_suffix_none c secret hbs2]
termination_by fuel

/-- `RecoverECBSuffixOracleSecret` recovers any secret containing no
byte `255` from its oracle, given an abstract cipher of block size at
least two (concretely, AES-128) and enough fuel for the model's loop
bounds. -/
theorem recoverECBSuffixOracleSecret_complete (c : BlockCipher)
    (secret : List Nat) (hbs2 : 2 ≤ c.bs)
    (hsec : ∀ a ∈ secret, a < 255) (fuel : Nat)
    (hfuel : secret.length + 2 + c.bs ≤ fuel) :
    recoverECBSuffixOracleSecret fuel (mkECBSuffixOracle c secret)
      = some secret := by
  have hfb : findBlockSize fuel (mkECBSuffixOracle c secret)
      = some c.bs :=
    findBlockSize_padded _ secret.length c.bs c.bs_pos
      (mkECBSuffixOracle_length c secret) fuel (by omega)
  have horacle : mkECBSuffixOracle c secret
      = mkECBOrCBCPrefixSuffixOracle c (List.replicate c.bs 0) [] secret
        true := rfl
  have hecb : isECBOracle fuel (mkECBSuffixOracle c secret)
      = some true := by
    rw [horacle]
    exact isECBOracle_affix_ecb c (List.replicate c.bs 0) [] secret
      (by simp) (by simp) hbs2 fuel (by omega)
  have hrounds : recoverRounds (mkECBSuffixOracle c secret) c.bs fuel []
      = some (secret ++ [1]) := by
    have h0 : ((secret ++ [1]).take 0) = ([] : List Nat) := rfl
    rw [← h0]
    exact recoverRounds_complete c secret hbs2 hsec fuel 0 (by omega)
      (by omega)
  have hunpad : unpadPKCS7 (secret ++ [1]) = some secret := by
    have h1 : List.replicate 1 1 = ([1] : List Nat) := rfl
    rw [← h1]
    exact unpadPKCS7_append_replicate secret 1 (by omega)
  unfold recoverECBSuffixOracleSecret
  rw [hfb, hecb]
  show (match recoverRounds (mkECBSuffixOracle c secret) c.bs fuel []
      with
    | some res => unpadPKCS7 res
    | none => none) = some secret
  rw [hrounds]
  exact hunpad

/-! ### Prefix-variant recovery over a block-aligned prefix -/

theorem ecbEncryptBlocks_append (c : BlockCipher) (x y : List Nat)
    (hdvd : c.bs ∣ x.length) :
    ecbEncryptBlocks c (x ++ y)
      = ecbEncryptBlocks c x ++ ecbEncryptBlocks c y := by
  by_cases hx : x = []
  · subst hx
    simp [ecbEncryptBlocks_nil]
  · have hbs := c.bs_pos
    have hle : c.bs ≤ x.length := dvd_length_le hx hdvd hbs
    have hxyne : x ++ y ≠ [] := by
      intro hc
      exact hx (List.append_eq_nil.mp hc).1
    rw [ecbEncryptBlocks_eq c (x ++ y), if_neg hxyne,
      ecbEncryptBlocks_eq c x, if_neg hx]
    have htk : (x ++ y).take c.bs = x.take c.bs := by
      rw [List.take_append_eq_append_take]
      have h0 : c.bs - x.length = 0 := by omega
      rw [h0, List.take_zero, List.append_nil]
    have hdp : (x ++ y).drop c.bs = x.drop c.bs ++ y := by
      rw [List.drop_append_eq_append_drop]
      have h0 : c.bs - x.length = 0 := by omega
      rw [h0, List.drop_zero]
    rw [htk, hdp,
      ecbEncryptBlocks_append c (x.drop c.bs) y (dvd_length_drop hdvd),
      List.append_assoc]
termination_by x.length
decreasing_by
  simp only [List.length_drop]
  exact Nat.sub_lt (List.length_pos.mpr hx) c.bs_pos

theorem pkcs7_append_left (bs : Nat) (pre z : List Nat)
    (hdvd : bs ∣ pre.length) :
    pkcs7 (pre ++ z) bs = pre ++ pkcs7 z bs := by
  obtain ⟨k, hk⟩ := hdvd
  rw [pkcs7_eq, pkcs7_eq, List.length_append, hk, Nat.mul_add_mod,
    List.append_assoc]

/-- With a block-aligned fixed prefix, the challenge-14 oracle is the
challenge-12 oracle preceded by the constant ciphertext of the
prefix. -/
theorem prefix_oracle_decomp (c : BlockCipher) (pre secret : List Nat)
    (hdvd : c.bs ∣ pre.length) (input : List Nat) :
    mkECBPrefixSuffixOracle c pre secret input
      = ecbEncryptBlocks c pre ++ mkECBSuffixOracle c secret input := by
  show ecbEncryptBlocks c (pkcs7 (pre ++ input ++ secret) c.bs) = _
  rw [List.append_assoc, pkcs7_append_left c.bs pre (input ++ secret) hdvd,
    ecbEncryptBlocks_append c pre _ hdvd]
  rfl

theorem prefix_oracle_take (c : BlockCipher) (pre secret : List Nat)
    (hdvd : c.bs ∣ pre.length) (x : List Nat) (L : Nat) :
    (mkECBPrefixSuffixOracle c pre secret x).take (pre.length + L)
      = ecbEncryptBlocks c pre
        ++ (mkECBSuffixOracle c secret x).take L := by
  have hE : (ecbEncryptBlocks c pre).length = pre.length :=
    ecbEncryptBlocks_length c pre hdvd
  rw [prefix_oracle_decomp c pre secret hdvd x,
    List.take_append_eq_append_take,
    List.take_of_length_le (by omega), hE, Nat.add_sub_cancel_left]

/-- The prefix-variant guess loop over a block-aligned prefix reduces
to a `find?` over candidates `0..255` of the suffix-oracle matching
condition: the window `prefixLen + len(input)` skips exactly the
prefix's constant ciphertext blocks. -/
theorem guessLoopWithPre_eq_suffix (c : BlockCipher)
    (pre secret filler res : List Nat) (hdvd : c.bs ∣ pre.length) :
    guessLoopWithPre (mkECBPrefixSuffixOracle c pre secret) pre.length
      filler res (mkECBPrefixSuffixOracle c pre secret filler)
    = (List.range 256).find? (fun b =>
        decide ((mkECBSuffixOracle c secret (filler ++ res ++ [b])).take
            (filler ++ res ++ [b]).length
          = (mkECBSuffixOracle c secret filler).take
            (filler ++ res ++ [b]).length)) := by
  unfold guessLoopWithPre
  congr 1
  funext b
  show decide ((mkECBPrefixSuffixOracle c pre secret
        (filler ++ res ++ [b])).take
        (pre.length + (filler ++ res ++ [b]).length)
      = (mkECBPrefixSuffixOracle c pre secret filler).take
        (pre.length + (filler ++ res ++ [b]).length)) = _
  rw [decide_eq_decide,
    prefix_oracle_take c pre secret hdvd (filler ++ res ++ [b]) _,
    prefix_oracle_take c pre secret hdvd filler _]
  exact List.append_right_inj _

/-- While `n ≤ |secret|`, the prefix-variant round with `n` bytes
recovered finds exactly the next byte of `secret ++ [1]`. -/
theorem guessLoopWithPre_some (c : BlockCipher) (pre secret : List Nat)
    (hdvd : c.bs ∣ pre.length) (hbs2 : 2 ≤ c.bs)
    (hsec : ∀ a ∈ secret, a < 256) (n : Nat) (hn : n ≤ secret.length) :
    guessLoopWithPre (mkECBPrefixSuffixOracle c pre secret) pre.length
      (List.replicate (c.bs - (pre.length + n) % c.bs - 1) 0)
      ((secret ++ [1]).take n)
      (mkECBPrefixSuffixOracle c pre secret
        (List.replicate (c.bs - (pre.length + n) % c.bs - 1) 0))
    = some ((secret ++ [1]).get ⟨n, by simp; omega⟩) := by
  have hbs : 0 < c.bs := by omega
  have hmod : (pre.length + n) % c.bs = n % c.bs := by
    obtain ⟨k, hk⟩ := hdvd
    rw [hk, Nat.mul_add_mod]
  rw [hmod]
  set t := (secret ++ [1]).get ⟨n, by simp; omega⟩ with hts
  set filler : List Nat := List.replicate (c.bs - n % c.bs - 1) 0
    with hfiller
  set res := (secret ++ [1]).take n with hres
  rw [guessLoopWithPre_eq_suffix c pre secret filler res hdvd]
  have hreslen : res.length = n := by
    rw [hres]
    simp
    omega
  have hfl : filler.length + (res.length + 1)
      = (res.length / c.bs + 1) * c.bs := by
    rw [hreslen, hfiller, List.length_replicate]
    exact filler_sum_mul c.bs n hbs
  have hwpos : 1 ≤ c.bs - (filler.length + secret.length) % c.bs := by
    have := Nat.mod_lt (filler.length + secret.length) hbs
    omega
  have hnw : res.length + 1 ≤ secret.length +
      (c.bs - (filler.length + secret.length) % c.bs) := by
    rw [hreslen]
    omega
  have htarget : (secret ++ List.replicate
      (c.bs - (filler.length + secret.length) % c.bs)
      (c.bs - (filler.length + secret.length) % c.bs)).take
      (res.length + 1) = res ++ [t] := by
    rw [hreslen]
    by_cases hlt : n < secret.length
    · have h1 : (secret ++ List.replicate
          (c.bs - (filler.length + secret.length) % c.bs)
          (c.bs - (filler.length + secret.length) % c.bs)).take (n + 1)
          = secret.take (n + 1) :=
        List.take_append_of_le_length (by omega)
      have h2 : res = secret.take n := by
        rw [hres]
        exact List.take_append_of_le_length (by omega)
      have h3 : t = secret.get ⟨n, hlt⟩ := by
        rw [hts]
        exact List.get_append n hlt
      rw [h1, h2, h3, List.take_succ, List.getElem?_eq_getElem hlt]
      rfl
    · have hnS : n = secret.length := by omega
      have hw : c.bs - (filler.length + secret.length) % c.bs = 1 := by
        rw [hfiller, List.length_replicate, hnS]
        exact padcount_at_S c.bs secret.length hbs
      have h2 : res = secret := by
        rw [hres, hnS, List.take_append_of_le_length (by omega),
          List.take_of_length_le (by omega)]
      have h3 : t = 1 := by
        rw [hts]
        simp only [List.get_eq_getElem]
        rw [List.getElem_append_right (by omega)]
        simp
      rw [hw, hnS, h2, h3]
      have hrep : List.replicate 1 1 = ([1] : List Nat) := rfl
      rw [hrep, List.take_of_length_le (by simp)]
  have htlt : t < 256 := by
    rw [hts]
    by_cases hlt : n < secret.length
    · rw [List.get_append n hlt]
      exact hsec _ (List.get_mem secret n hlt)
    · have hnS : n = secret.length := by omega
      simp only [List.get_eq_getElem]
      rw [List.getElem_append_right (by omega)]
      simp
  apply find?_eq_some_of_unique (List.mem_range.mpr htlt)
  intro b hb
  rw [decide_eq_true_eq,
    suffix_matchCond_iff c secret filler res b hfl hnw, htarget]
  constructor
  · intro h
    have := (List.append_right_inj res).mp h
    simpa using this
  · intro h
    rw [h]

/-- Once `secret ++ [1]` is recovered, no candidate byte matches in the
prefix-variant loop either. -/
theorem guessLoopWithPre_none (c : BlockCipher) (pre secret : List Nat)
    (hdvd : c.bs ∣ pre.length) (hbs2 : 2 ≤ c.bs) :
    guessLoopWithPre (mkECBPrefixSuffixOracle c pre secret) pre.length
      (List.replicate
        (c.bs - (pre.length + (secret.length + 1)) % c.bs - 1) 0)
      (secret ++ [1])
      (mkECBPrefixSuffixOracle c pre secret
        (List.replicate
          (c.bs - (pre.length + (secret.length + 1)) % c.bs - 1) 0))
    = none := by
  have hbs : 0 < c.bs := by omega
  have hmod : (pre.length + (secret.length + 1)) % c.bs
      = (secret.length + 1) % c.bs := by
    obtain ⟨k, hk⟩ := hdvd
    rw [hk, Nat.mul_add_mod]
  rw [hmod]
  set filler : List Nat :=
    List.replicate (c.bs - (secret.length + 1) % c.bs - 1) 0 with hfiller
  set res := secret ++ [1] with hres
  rw [guessLoopWithPre_eq_suffix c pre secret filler res hdvd]
  have hreslen : res.length = secret.length + 1 := by simp [hres]
  have hfl : filler.length + (res.length + 1)
      = (res.length / c.bs + 1) * c.bs := by
    rw [hreslen, hfiller, List.length_replicate]
    exact filler_sum_mul c.bs (secret.length + 1) hbs
  have hw : c.bs - (filler.length + secret.length) % c.bs = 2 := by
    rw [hfiller, List.length_replicate]
    exact padcount_at_S1 c.bs secret.length hbs2
  have hnw : res.length + 1 ≤ secret.length +
      (c.bs - (filler.length + secret.length) % c.bs) := by
    rw [hreslen, hw]
  apply find?_eq_none_of_all
  intro b _
  rw [Bool.eq_false_iff]
  intro hP
  rw [decide_eq_true_eq,
    suffix_matchCond_iff c secret filler res b hfl hnw, hw] at hP
  have hrep : List.replicate 2 2 = ([2, 2] : List Nat) := rfl
  rw [hrep, hreslen, List.take_of_length_le (by simp), hres,
    List.append_assoc] at hP
  have := (List.append_right_inj secret).mp hP
  simp at this

theorem recoverRoundsWithPre_succ (oracle : List Nat → List Nat)
    (bs preLen fuel : Nat) (res : List Nat) :
    recoverRoundsWithPre oracle bs preLen (fuel + 1) res =
      match guessLoopWithPre oracle preLen
        (List.replicate (bs - (preLen + res.length) % bs - 1) 0) res
        (oracle (List.replicate (bs - (preLen + res.length) % bs - 1) 0))
          with
      | some b => recoverRoundsWithPre oracle bs preLen fuel (res ++ [b])
      | none => some res := rfl

theorem recoverRoundsWithPre_complete (c : BlockCipher)
    (pre secret : List Nat) (hdvd : c.bs ∣ pre.length) (hbs2 : 2 ≤ c.bs)
    (hsec : ∀ a ∈ secret, a < 256) (fuel n : Nat)
    (hn : n ≤ secret.length + 1)
    (hfuel : secret.length + 2 - n ≤ fuel) :
    recoverRoundsWithPre (mkECBPrefixSuffixOracle c pre secret) c.bs
      pre.length fuel ((secret ++ [1]).take n) = some (secret ++ [1]) := by
  match fuel with
  | 0 => omega
  | fuel + 1 =>
    have hreslen : ((secret ++ [1]).take n).length = n := by
      simp
      omega
    rw [recoverRoundsWithPre_succ, hreslen]
    by_cases hns : n ≤ secret.length
    · rw [guessLoopWithPre_some c pre secret hdvd hbs2 hsec n hns]
      show recoverRoundsWithPre (mkECBPrefixSuffixOracle c pre secret)
        c.bs pre.length fuel ((secret ++ [1]).take n
          ++ [(secret ++ [1]).get ⟨n, by simp; omega⟩])
        = some (secret ++ [1])
      have hb : n < (secret ++ [1]).length := by simp; omega
      have hsucc : (secret ++ [1]).take n
          ++ [(secret ++ [1]).get ⟨n, by simp; omega⟩]
          = (secret ++ [1]).take (n + 1) := by
        rw [List.take_succ, List.getElem?_eq_getElem hb]
        rfl
      rw [hsucc]
      exact recoverRoundsWithPre_complete c pre secret hdvd hbs2 hsec fuel
        (n + 1) (by omega) (by omega)
    · have hn1 : n = secret.length + 1 := by omega
      have hresfull : (secret ++ [1]).take n = secret ++ [1] := by
        rw [hn1]
        exact List.take_of_length_le (by simp)
      rw [hresfull, hn1, guessLoopWithPre_none c pre secret hdvd hbs2]
termination_by fuel

/-- Full prefix-variant recovery: over a block-aligned prefix the
discovered prefix length is exact and the byte-at-a-time rounds
recover the whole secret. -/
theorem recoverECBPrefixSuffixSecret_complete (c : BlockCipher)
    (pre secret ref : List Nat) (reps fuel : Nat)
    (hdvd : c.bs ∣ pre.length) (hbs2 : 2 ≤ c.bs)
    (href : ref.length = c.bs)
    (hreps : pre.length + secret.length + 5 ≤ reps)
    (hA : ∀ blk ∈ toBlocks c.bs
      (pre ++ ref.take ((c.bs - pre.length % c.bs) % c.bs)),
      blk ≠ ref.rotate ((c.bs - pre.length % c.bs) % c.bs))
    (hsec : ∀ a ∈ secret, a < 256)
    (hfuel : secret.length + 2 + c.bs ≤ fuel) :
    recoverECBPrefixSuffixSecret fuel reps ref
      (mkECBPrefixSuffixOracle c pre secret) = some secret := by
  have hbs : 0 < c.bs := by omega
  have hfb : findBlockSize fuel (mkECBPrefixSuffixOracle c pre secret)
      = some c.bs :=
    findBlockSize_padded _ (pre.length + secret.length) c.bs hbs
      (mkECBPrefixSuffixOracle_length c pre secret) fuel (by omega)
  have hs0 : (c.bs - pre.length % c.bs) % c.bs = 0 := by
    obtain ⟨k, hk⟩ := hdvd
    rw [hk, Nat.mul_mod_right, Nat.sub_zero, Nat.mod_self]
  have hdisc := discoverPrefixLength_eq c pre secret ref reps href hreps hA
  rw [hs0, Nat.add_zero] at hdisc
  have hrounds : recoverRoundsWithPre (mkECBPrefixSuffixOracle c pre
      secret) c.bs pre.length fuel [] = some (secret ++ [1]) := by
    have h0 : ((secret ++ [1]).take 0) = ([] : List Nat) := rfl
    rw [← h0]
    exact recoverRoundsWithPre_complete c pre secret hdvd hbs2 hsec fuel 0
      (by omega) (by omega)
  have hunpad : unpadPKCS7 (secret ++ [1]) = some secret := by
    have h1 : List.replicate 1 1 = ([1] : List Nat) := rfl
    rw [← h1]
    exact unpadPKCS7_append_replicate secret 1 (by omega)
  unfold recoverECBPrefixSuffixSecret
  rw [hfb]
  show (match discoverPrefixLength c.bs reps ref
      (mkECBPrefixSuffixOracle c pre secret) with
    | none => none
    | some preLen =>
      match recoverRoundsWithPre (mkECBPrefixSuffixOracle c pre secret)
          c.bs preLen fuel [] with
      | some res => unpadPKCS7 res
      | none => none) = some secret
  rw [hdisc]
  show (match recoverRoundsWithPre (mkECBPrefixSuffixOracle c pre secret)
      c.bs pre.length fuel [] with
    | some res => unpadPKCS7 res
    | none => none) = some secret
  rw [hrounds]
  exact hunpad

/-! ### Claim C2: byte-at-a-time secret recovery -/

/-- C2 counterexample: the guess loop
(`for i := range math.MaxUint8`) tries candidate bytes `0..254` only,
never `255`; against the one-byte secret `[255]` the first round finds
no match, the engine stops with nothing recovered, and the final
`UnpadPKCS7` indexes an empty slice (a panic, modelled as `none`) —
the secret is not returned. -/
theorem claim_C2_counterexample :
    recoverECBSuffixOracleSecret 20 (mkECBSuffixOracle idCipher16 [255])
      = none ∧ (none : Option (List Nat)) ≠ some [255] := by decide

/-- C2 amended: for every 16-byte-block cipher (AES-128's abstract
stand-in) and every secret *containing no byte `255`*,
`RecoverECBSuffixOracleSecret` applied to `NewECBSuffixOracle(secret)`
returns exactly the secret (fuel covering the model's loop bounds). -/
theorem claim_C2_recover_suffix (c : BlockCipher) (hbs16 : c.bs = 16)
    (secret : List Nat) (hsec : ∀ a ∈ secret, a < 255)
    (fuel : Nat) (hfuel : secret.length + 18 ≤ fuel) :
    recoverECBSuffixOracleSecret fuel (mkECBSuffixOracle c secret)
      = some secret :=
  recoverECBSuffixOracleSecret_complete c secret (by omega) hsec fuel
    (by omega)

/-- Witness for C2 at the 5-byte secret "Hello". -/
theorem claim_C2_recover_suffix_witness :
    recoverECBSuffixOracleSecret 23 (mkECBSuffixOracle idCipher16
      [72, 101, 108, 108, 111]) = some [72, 101, 108, 108, 111] :=
  claim_C2_recover_suffix idCipher16 rfl [72, 101, 108, 108, 111]
    (by decide) 23 (by decide)

/-! ### Claim C9: the zero-length secret -/

/-- C9 counterexample: with a zero-length secret the engine does *not*
terminate in round 1 — a candidate byte (the padding byte `1`) does
match in the first guess round.  With one round of fuel the loop is
still running (`none` = fuel exhausted after the round-1 match); with
two rounds it terminates having recovered `[1]`. -/
theorem claim_C9_counterexample :
    recoverRounds (mkECBSuffixOracle idCipher16 []) 16 1 [] = none ∧
    recoverRounds (mkECBSuffixOracle idCipher16 []) 16 2 []
      = some [1] := by decide

/-- C9 amended: with a zero-length secret, round 1 *matches* the
padding byte `1`, the engine terminates in round 2 (when no candidate
matches), and after stripping the guessed padding it returns the empty
byte sequence. -/
theorem claim_C9_empty_secret (c : BlockCipher) (hbs16 : c.bs = 16)
    (fuel : Nat) (hfuel : 18 ≤ fuel) :
    guessLoop (mkECBSuffixOracle c []) (List.replicate 15 0) []
      (mkECBSuffixOracle c [] (List.replicate 15 0)) = some 1 ∧
    recoverRounds (mkECBSuffixOracle c []) c.bs fuel []
      = some [1] ∧
    recoverECBSuffixOracleSecret fuel (mkECBSuffixOracle c [])
      = some [] := by
  refine ⟨?_, ?_, ?_⟩
  · have h := guessLoop_suffix_some c [] (by omega) (by simp) 0 (by simp)
    rw [hbs16] at h
    simpa using h
  · have h := recoverRounds_complete c [] (by omega) (by simp) fuel 0
      (by simp) (by simp; omega)
    simpa using h
  · exact recoverECBSuffixOracleSecret_complete c [] (by omega)
      (by simp) fuel (by simp; omega)

/-- Witness for C9 at the identity cipher. -/
theorem claim_C9_empty_secret_witness :
    guessLoop (mkECBSuffixOracle idCipher16 []) (List.replicate 15 0) []
      (mkECBSuffixOracle idCipher16 [] (List.replicate 15 0))
      = some 1 ∧
    recoverRounds (mkECBSuffixOracle idCipher16 []) idCipher16.bs 18 []
      = some [1] ∧
    recoverECBSuffixOracleSecret 18 (mkECBSuffixOracle idCipher16 [])
      = some [] :=
  claim_C9_empty_secret idCipher16 rfl 18 (by decide)

/-! ### Claim C6: block-size discovery -/

/-- C6: for every oracle whose output length is the input length plus a
fixed constant `K`, rounded up to the next strictly larger multiple of
the block size `bs` (PKCS #7-style), `FindBlockSize` returns `bs`
(given fuel of at least `bs` growth steps for the model's loop
bound). -/
theorem claim_C6_findBlockSize (oracle : List Nat → List Nat)
    (K bs : Nat) (hbs : 0 < bs)
    (hlen : ∀ x : List Nat,
      (oracle x).length = ((x.length + K) / bs + 1) * bs)
    (fuel : Nat) (hfuel : bs ≤ fuel) :
    findBlockSize fuel oracle = some bs :=
  findBlockSize_padded oracle K bs hbs hlen fuel hfuel

/-- Witness for C6, the spec's concrete case: an AES-128-style suffix
oracle with no prefix (here over the 16-byte identity cipher, with a
5-byte secret) yields block size 16. -/
theorem claim_C6_findBlockSize_witness :
    findBlockSize 16 (mkECBSuffixOracle idCipher16 [7, 7, 7, 7, 7])
      = some 16 :=
  claim_C6_findBlockSize (mkECBSuffixOracle idCipher16 [7, 7, 7, 7, 7])
    5 16 (by decide)
    (fun x => mkECBSuffixOracle_length idCipher16 [7, 7, 7, 7, 7] x)
    16 (by decide)

/-! ### Claim C5: mode detection -/

/-- A 16-byte-block cipher rotating the block left by one byte (and
back); unlike the identity it is not an involution, so chained CBC
ciphertext blocks of a constant plaintext do not collide. -/
def rotCipher16 : BlockCipher where
  bs := 16
  bs_pos := by decide
  enc := fun b => b.rotate 1
  dec := fun b => b.rotate 15
  enc_len := fun b h => by simpa using h
  dec_len := fun b h => by simpa using h
  dec_enc := fun b hb => by
    show (b.rotate 1).rotate 15 = b
    rw [List.rotate_rotate]
    have h16 : (1 + 15) = b.length := by rw [hb]
    rw [h16, List.rotate_length]

/-- C5 counterexample: a challenge-11-family CBC oracle (16-byte
blocks, 5-byte prefix and suffix, block-length IV) over the identity
cipher with an all-zero IV produces a probe ciphertext whose blocks
repeat, so `IsECBOracle` wrongly answers `true` for a CBC oracle:
the claim does not hold over every key/IV draw of the family. -/
theorem claim_C5_counterexample :
    isECBOracle 16 (mkECBOrCBCPrefixSuffixOracle idCipher16
      (List.replicate 16 0) (List.replicate 5 0) (List.replicate 5 0)
      false) = some true := by decide

/-- C5 amended: over the challenge-11 oracle family (block size 16,
block-length IV, 5–10 byte prefix and suffix), `IsECBOracle` always
returns `true` for the ECB variant; for the CBC variant it returns
`false` exactly under the no-collision side condition — the probe's
CBC ciphertext containing no repeated block — which holds for all but
a negligible fraction of random key/IV draws but not for every one. -/
theorem claim_C5_isECBOracle (c : BlockCipher) (iv pre suf : List Nat)
    (hiv : iv.length = c.bs) (hbs : c.bs = 16)
    (hp5 : 5 ≤ pre.length) (hp10 : pre.length ≤ 10)
    (hs5 : 5 ≤ suf.length) (hs10 : suf.length ≤ 10)
    (fuel : Nat) (hfuel : 16 ≤ fuel)
    (hnorep : hasRepeatedBlock (toBlocks c.bs (cbcEncryptBlocks c iv
      (pkcs7 (pre ++ List.replicate (c.bs * 3) 0 ++ suf) c.bs)))
      = false) :
    isECBOracle fuel (mkECBOrCBCPrefixSuffixOracle c iv pre suf true)
      = some true ∧
    isECBOracle fuel (mkECBOrCBCPrefixSuffixOracle c iv pre suf false)
      = some false :=
  ⟨isECBOracle_affix_ecb c iv pre suf hiv (by omega) (by omega)
      fuel (by omega),
    isECBOracle_affix_cbc c iv pre suf hiv (by omega) fuel (by omega)
      hnorep⟩

/-- Witness for C5: the rotate-by-one cipher with IV
`[0, 1, ..., 15]` and 5-byte affixes; the ECB variant fingerprints
`true`, the CBC variant `false`. -/
theorem claim_C5_isECBOracle_witness :
    isECBOracle 16 (mkECBOrCBCPrefixSuffixOracle rotCipher16
      (List.range 16) (List.replicate 5 0) (List.replicate 5 0) true)
      = some true ∧
    isECBOracle 16 (mkECBOrCBCPrefixSuffixOracle rotCipher16
      (List.range 16) (List.replicate 5 0) (List.replicate 5 0) false)
      = some false :=
  claim_C5_isECBOracle rotCipher16 (List.range 16) (List.replicate 5 0)
    (List.replicate 5 0) (by decide) rfl (by decide) (by decide)
    (by decide) (by decide) 16 (by decide) (by decide)

/-! ### Claim C8: buffer overlap rejection -/

/-- C8 counterexample: the set2.go CBC decrypter performs no overlap
check at all, so a partially overlapping `dst`/`src` pair (offsets 1
and 0 over a shared 6-byte buffer) is *not* rejected with
`InvalidOverlap`; the call succeeds. -/
theorem claim_C8_counterexample :
    cbcSet2CryptBlocks idCipher2 [1, 2, 3, 4, 0, 0] [5, 6] ⟨1, 4⟩ ⟨0, 4⟩
      = .ok ([1, 4, 4, 2, 6, 0], [3, 4]) := rfl

/-- C8 amended: the overlap contract holds for the `ecb` and `cbc`
*package* engines (which call `alias.InexactOverlap`): a partially
overlapping pair is rejected with `InvalidOverlap`, while exact
identity aliasing (`dst == src`) passes the check and succeeds.  The
cryptopals-package engines of set2.go do not check overlap: with valid
lengths the set2 CBC decrypter succeeds on *any* overlap. -/
theorem claim_C8_overlap (c : BlockCipher) (mem iv : List Nat)
    (dst src : Slice) (hlen : src.len % c.bs = 0)
    (hdst : src.len ≤ dst.len) (hne : src.len ≠ 0) :
    ((dst.off < src.off + src.len ∧ src.off < dst.off + src.len ∧
        dst.off ≠ src.off) →
      ecbPkgEncrypterCryptBlocks c mem dst src = .error .invalidOverlap ∧
      ecbPkgDecrypterCryptBlocks c mem dst src = .error .invalidOverlap ∧
      cbcPkgDecrypterCryptBlocks c mem iv dst src
        = .error .invalidOverlap) ∧
    (dst = src →
      (∃ r, ecbPkgEncrypterCryptBlocks c mem dst src = .ok r) ∧
      (∃ r, ecbPkgDecrypterCryptBlocks c mem dst src = .ok r) ∧
      (∃ r, cbcPkgDecrypterCryptBlocks c mem iv dst src = .ok r)) ∧
    (∃ r, cbcSet2CryptBlocks c mem iv dst src = .ok r) := by
  refine ⟨?_, ?_, ?_⟩
  · rintro ⟨h1, h2, h3⟩
    have hov : inexactOverlap ⟨dst.off, src.len⟩ src = true := by
      simp [inexactOverlap, hne, h1, h2, h3]
    refine ⟨?_, ?_, ?_⟩ <;>
      simp [ecbPkgEncrypterCryptBlocks, ecbPkgDecrypterCryptBlocks,
        cbcPkgDecrypterCryptBlocks, hlen, hov, hne, Nat.not_lt.mpr hdst]
  · rintro rfl
    have hov : inexactOverlap ⟨dst.off, dst.len⟩ dst = false := by
      simp [inexactOverlap]
    have h1 : ecbPkgEncrypterCryptBlocks c mem dst dst
        = .ok (writeSlice mem dst.off
          (ecbEncryptBlocks c (readSlice mem dst.off dst.len))) := by
      simp [ecbPkgEncrypterCryptBlocks, hlen, hov, hne, Nat.not_lt.mpr hdst]
    have h2 : ecbPkgDecrypterCryptBlocks c mem dst dst
        = .ok (writeSlice mem dst.off
          (ecbDecryptBlocks c (readSlice mem dst.off dst.len))) := by
      simp [ecbPkgDecrypterCryptBlocks, hlen, hov, hne, Nat.not_lt.mpr hdst]
    have h3 : cbcPkgDecrypterCryptBlocks c mem iv dst dst
        = .ok (cbcPkgDecryptGo c mem iv dst.off dst.off (dst.len / c.bs)) := by
      simp [cbcPkgDecrypterCryptBlocks, hlen, hov, hne, Nat.not_lt.mpr hdst]
    exact ⟨⟨_, h1⟩, ⟨_, h2⟩, ⟨_, h3⟩⟩
  · have h4 : cbcSet2CryptBlocks c mem iv dst src
        = .ok (cbcSet2DecryptBlocksGo c mem iv dst.off src.off
          (src.len / c.bs - 1),
          readSlice mem (src.off + src.len - c.bs) c.bs) := by
      simp [cbcSet2CryptBlocks, hlen, hne, Nat.not_lt.mpr hdst]
    exact ⟨_, h4⟩

/-- Witness for C8 at a concrete partial overlap (offsets 1 and 0) and
a concrete exact aliasing. -/
theorem claim_C8_overlap_witness :
    ecbPkgEncrypterCryptBlocks idCipher2 [1, 2, 3, 4, 0, 0] ⟨1, 4⟩ ⟨0, 4⟩
      = .error .invalidOverlap ∧
    (∃ r, ecbPkgEncrypterCryptBlocks idCipher2 [1, 2, 3, 4] ⟨0, 4⟩ ⟨0, 4⟩
      = .ok r) := by
  refine ⟨?_, ?_⟩
  · exact ((claim_C8_overlap idCipher2 [1, 2, 3, 4, 0, 0] [] ⟨1, 4⟩ ⟨0, 4⟩
      (by decide) (by decide) (by decide)).1 (by decide)).1
  · exact ((claim_C8_overlap idCipher2 [1, 2, 3, 4] [] ⟨0, 4⟩ ⟨0, 4⟩
      (by decide) (by decide) (by decide)).2.1 rfl).1

/-! ### Claim C3: CBC chaining state across calls -/

/-- C3: the cbc-package decrypter (cbc/cbc.go) violates the chaining
contract on an in-place call (`dst == src`).  Decrypting the two-block
ciphertext `[1, 2, 3, 4]` in place under the 2-byte identity cipher
with IV `[5, 6]`: the CBC plaintext is `[4, 4, 2, 6]` and the last
ciphertext block is `[3, 4]`, but because the engine stores `d.iv` as a
reference into the buffer it is overwriting, it produces the corrupted
plaintext `[4, 4, 7, 0]` and finishes with chaining state `[7, 0]` —
the decrypted data, not the last ciphertext block.  The set2.go
decrypter (which clones the last ciphertext block before the loop)
computes both correctly on the same call. -/
theorem claim_C3_cbcpkg_inplace_bug :
    cbcPkgDecrypterCryptBlocks idCipher2 [1, 2, 3, 4] [5, 6] ⟨0, 4⟩ ⟨0, 4⟩
      = .ok ([4, 4, 7, 0], [7, 0]) ∧
    cbcDecryptBlocks idCipher2 [5, 6] [1, 2, 3, 4] = [4, 4, 2, 6] ∧
    readSlice [1, 2, 3, 4] 2 2 = [3, 4] ∧
    ([7, 0] : List Nat) ≠ [3, 4] ∧
    ([4, 4, 7, 0] : List Nat) ≠ [4, 4, 2, 6] ∧
    cbcSet2CryptBlocks idCipher2 [1, 2, 3, 4] [5, 6] ⟨0, 4⟩ ⟨0, 4⟩
      = .ok ([4, 4, 2, 6], [3, 4]) :=
  ⟨rfl, rfl, rfl, by decide, by decide, rfl⟩

/-! ### Claim C4: prefix-length discovery and prefix-variant recovery -/

set_option maxRecDepth 100000 in
/-- C4 counterexample: with the 16-byte identity cipher, the 1-byte
prefix `[42]` and the secret `[5, 6, 7]`, prefix-length discovery over
the repeated reference pattern `0..15` returns `some 16`, not the true
prefix length `1` — the repeated pattern is phase-shifted against the
block grid, so the magic block only recurs once the probe is
block-aligned, placing its first occurrence at the block boundary
*after* the prefix — and the full recovery returns `none` rather than
the secret. -/
theorem claim_C4_counterexample :
    discoverPrefixLength 16 9 (List.range 16)
      (mkECBPrefixSuffixOracle idCipher16 [42] [5, 6, 7]) = some 16
    ∧ (some 16 : Option Nat) ≠ some 1
    ∧ recoverECBPrefixSuffixSecret 25 9 (List.range 16)
        (mkECBPrefixSuffixOracle idCipher16 [42] [5, 6, 7])
      ≠ some [5, 6, 7] := by
  refine ⟨by decide, by decide, ?_⟩
  have h : recoverECBPrefixSuffixSecret 25 9 (List.range 16)
      (mkECBPrefixSuffixOracle idCipher16 [42] [5, 6, 7]) = none := by
    decide
  rw [h]
  decide

/-- C4 (amended): for every cipher, prefix and secret (all secret bytes
below 256), with a full-block reference pattern, enough repetitions,
and no spurious prefix block equal to the rotated pattern, the
spec's prefix-length discovery returns the prefix length rounded up to
the next multiple of the block size — the true prefix length exactly
when the prefix is block-aligned, in which case the prefix-variant
recovery also returns exactly the secret. -/
theorem claim_C4_prefix_discovery_and_recovery (c : BlockCipher)
    (pre secret ref : List Nat) (reps fuel : Nat)
    (hbs2 : 2 ≤ c.bs) (href : ref.length = c.bs)
    (hreps : pre.length + secret.length + 5 ≤ reps)
    (hA : ∀ blk ∈ toBlocks c.bs
      (pre ++ ref.take ((c.bs - pre.length % c.bs) % c.bs)),
      blk ≠ ref.rotate ((c.bs - pre.length % c.bs) % c.bs))
    (hsec : ∀ a ∈ secret, a < 256)
    (hfuel : secret.length + 2 + c.bs ≤ fuel) :
    discoverPrefixLength c.bs reps ref
      (mkECBPrefixSuffixOracle c pre secret)
      = some (pre.length + (c.bs - pre.length % c.bs) % c.bs)
    ∧ (c.bs ∣ pre.length →
        recoverECBPrefixSuffixSecret fuel reps ref
          (mkECBPrefixSuffixOracle c pre secret) = some secret) :=
  ⟨discoverPrefixLength_eq c pre secret ref reps href hreps hA,
    fun hdvd => recoverECBPrefixSuffixSecret_complete c pre secret ref
      reps fuel hdvd hbs2 href hreps hA hsec hfuel⟩

/-- C4 witness: the 16-byte identity cipher, the block-aligned 16-byte
prefix of `99`s and the secret `[1, 2, 3]`: discovery returns `some 16`
(the true prefix length) and recovery returns the secret. -/
theorem claim_C4_prefix_discovery_and_recovery_witness :
    discoverPrefixLength 16 24 (List.range 16)
      (mkECBPrefixSuffixOracle idCipher16 (List.replicate 16 99)
        [1, 2, 3]) = some 16
    ∧ recoverECBPrefixSuffixSecret 21 24 (List.range 16)
        (mkECBPrefixSuffixOracle idCipher16 (List.replicate 16 99)
          [1, 2, 3]) = some [1, 2, 3] := by
  have h := claim_C4_prefix_discovery_and_recovery idCipher16
    (List.replicate 16 99) [1, 2, 3] (List.range 16) 24 21
    (by decide) (by decide) (by decide) (by decide) (by decide)
    (by decide)
  exact ⟨h.1, h.2 (by decide)⟩

end Cryptopals
